import Mathlib

/-!
# fat0 transaction validation

A shallow embedding of `fat0/transaction.go` (package `fat0` of fatd) and the
properties of its validation pipeline.

Conventions of the embedding:

* `uint64` values are natural numbers; arithmetic that can wrap is written with an
  explicit `% 2 ^ 64`.
* A Go `error` result is `Except Err Unit`, `.ok ()` standing for `nil`.
* A run-time fault of Go (index out of range, nil dereference) is the distinguished
  error `Err.runtimeFault`.
* A Go `map[factom.Bytes32]uint64` is the list of its entries in the order in which a
  `range` statement visits them. Go leaves that order unspecified, so every statement
  below is made for an arbitrary list.
* Package `factom`, `fat0/entry.go` and `encoding/json` are collaborators of this file:
  what `transaction.go` calls from them is a field of `Env` or of `Codec`.
-/

namespace Fat0

/-- A byte string (`[]byte`, `factom.Bytes`). -/
abbrev Bytes := List Nat

/-- The type `factom.Bytes32`: a 32 byte array, read as one number. -/
abbrev Bytes32 := Nat

/-- The type `AddressAmountMap`, a `map[factom.Bytes32]uint64`. -/
abbrev AddressAmountMap := List (Bytes32 × Nat)

/-- The keys of a map, in iteration order. -/
def keys (m : AddressAmountMap) : List Bytes32 := m.map Prod.fst

/-- The test `_, ok := m[k]`. -/
def hasKey (m : AddressAmountMap) (k : Bytes32) : Bool := m.any (fun p => p.1 == k)

/-- The assignment `m[k] = v`. -/
def store (m : AddressAmountMap) (k : Bytes32) (v : Nat) : AddressAmountMap :=
  if hasKey m k then m.map (fun p => if p.1 = k then (k, v) else p) else m ++ [(k, v)]

/-- The errors that `transaction.go` returns, one constructor per message. -/
inductive Err where
  /-- an error of `encoding/json`, passed through unchanged -/
  | json (code : Nat)
  /-- "invalid height" -/
  | invalidHeight
  /-- "no inputs" -/
  | noInputs
  /-- "no outputs" -/
  | noOutputs
  /-- "sum(inputs) != sum(outputs)" -/
  | sumMismatch
  /-- "invalid coinbase transaction" -/
  | invalidCoinbase
  /-- "an address appears in both the inputs and the outputs" -/
  | overlap
  /-- "insufficient number of ExtIDs" -/
  | insufficientExtIDs
  /-- "invalid RCD size" -/
  | invalidRCDSize
  /-- "invalid RCD type" -/
  | invalidRCDType
  /-- "invalid signature size" -/
  | invalidSignatureSize
  /-- "invalid RCD" -/
  | invalidRCD
  /-- "invalid RCDs" -/
  | invalidRCDs
  /-- "invalid signatures" -/
  | invalidSignatures
  /-- "invalid amount (0) for address: ..." -/
  | zeroAmount
  /-- "duplicate address: ..." -/
  | duplicateAddress
  /-- a run-time fault: index out of range or nil pointer dereference -/
  | runtimeFault
  deriving DecidableEq, Repr

deriving instance DecidableEq for Except

/-- The fields of `factom.Entry` that `transaction.go` reads. -/
structure Entry where
  ExtIDs : List Bytes
  Content : Bytes
  Height : Nat
  deriving DecidableEq, Repr

/-- The struct `Transaction`. -/
structure Transaction where
  Inputs : AddressAmountMap
  Outputs : AddressAmountMap
  Height : Nat
  Salt : String
  Entry : Entry
  deriving DecidableEq, Repr

/-- What `transaction.go` uses from package `factom` and from `fat0/entry.go`. -/
structure Env where
  /-- the double SHA-256 of a byte string -/
  sha256d : Bytes → Bytes32
  /-- the value of `coinbase.RCDHash()` -/
  coinbase : Bytes32
  /-- the constant `factom.RCDSize` -/
  RCDSize : Nat
  /-- the constant `factom.RCDType` -/
  RCDType : Nat
  /-- the constant `factom.SignatureSize` -/
  SignatureSize : Nat
  /-- the method `Entry.unmarshalEntry`, applied to the transaction itself: the receiver
  after the call, or the error -/
  unmarshalEntry : Transaction → Except Err Transaction
  /-- the method `Entry.validSignatures` -/
  validSignatures : Entry → Nat → Bool

/-- The constant `MaxHeightDifference`. -/
def MaxHeightDifference : Nat := 3

/-- Subtraction of `uint64` operands, wrapping modulo `2 ^ 64`. -/
def sub64 (a b : Nat) : Nat := (a + 2 ^ 64 - b) % 2 ^ 64

/-- The first condition of `ValidData`:
`t.Height > t.Entry.Height || t.Entry.Height-t.Height > MaxHeightDifference`.
The subtraction is an argument, so that what `||` leaves unevaluated can be told apart. -/
def heightGuard (sub : Nat → Nat → Nat) (entryHeight height : Nat) : Bool :=
  decide (height > entryHeight) || decide (sub entryHeight height > MaxHeightDifference)

/-- The function `sum`: the amounts added up in a `uint64`. -/
def sum (aam : AddressAmountMap) : Nat :=
  aam.foldl (fun s p => (s + p.2) % 2 ^ 64) 0

/-- The function `emptyIntersection`. -/
def emptyIntersection (a b : AddressAmountMap) : Bool :=
  let short := if b.length < a.length then b else a
  let long := if b.length < a.length then a else b
  short.all (fun p => !hasKey long p.1)

/-- The method `Transaction.Coinbase`. -/
def Coinbase (env : Env) (t : Transaction) : Bool := hasKey t.Inputs env.coinbase

/-- The method `Transaction.ValidData`. -/
def ValidData (env : Env) (t : Transaction) : Except Err Unit :=
  if heightGuard sub64 t.Entry.Height t.Height then .error .invalidHeight
  else if t.Inputs.length = 0 then .error .noInputs
  else if t.Outputs.length = 0 then .error .noOutputs
  else if sum t.Inputs ≠ sum t.Outputs then .error .sumMismatch
  else if Coinbase env t && t.Inputs.length ≠ 1 then .error .invalidCoinbase
  else if !emptyIntersection t.Inputs t.Outputs then .error .overlap
  else .ok ()

/-- A loop `for i := 0; i < n; i++` whose body may return an error, over the values of
`i` that are left. -/
def forEach : List Nat → (Nat → Except Err Unit) → Except Err Unit
  | [], _ => .ok ()
  | i :: rest, body =>
    match body i with
    | .error e => .error e
    | .ok _ => forEach rest body

/-- The body of the loop of `ValidExtIDs` at index `i`. -/
def checkPair (env : Env) (extIDs : List Bytes) (i : Nat) : Except Err Unit :=
  match extIDs[i * 2]? with
  | none => .error .runtimeFault
  | some rcd =>
    if rcd.length ≠ env.RCDSize then .error .invalidRCDSize
    else
      match rcd[0]? with
      | none => .error .runtimeFault
      | some b =>
        if b ≠ env.RCDType then .error .invalidRCDType
        else
          match extIDs[i * 2 + 1]? with
          | none => .error .runtimeFault
          | some sig =>
            if sig.length ≠ env.SignatureSize then .error .invalidSignatureSize
            else .ok ()

/-- The method `Transaction.ValidExtIDs`. -/
def ValidExtIDs (env : Env) (t : Transaction) : Except Err Unit :=
  if t.Entry.ExtIDs.length < 2 * t.Inputs.length then .error .insufficientExtIDs
  else forEach (List.range t.Inputs.length) (checkPair env t.Entry.ExtIDs)

/-- The method `Transaction.ValidSignatures`. -/
def ValidSignatures (env : Env) (t : Transaction) : Bool :=
  env.validSignatures t.Entry t.Inputs.length

/-- The first loop of `ValidRCDs`, over the values of `i` that are left:
`extIDRCDHashes[sha256d(t.ExtIDs[i*2])] = 0`. -/
def collectRCDHashes (env : Env) (extIDs : List Bytes) :
    List Nat → AddressAmountMap → Except Err AddressAmountMap
  | [], m => .ok m
  | i :: rest, m =>
    match extIDs[i * 2]? with
    | none => .error .runtimeFault
    | some rcd => collectRCDHashes env extIDs rest (store m (env.sha256d rcd) 0)

/-- The method `Transaction.ValidRCDs`. -/
def ValidRCDs (env : Env) (t : Transaction) : Except Err Bool :=
  match collectRCDHashes env t.Entry.ExtIDs (List.range t.Inputs.length) [] with
  | .error e => .error e
  | .ok extIDRCDHashes => .ok (t.Inputs.all (fun p => hasKey extIDRCDHashes p.1))

/-- The method `Transaction.RCDHash`. -/
def RCDHash (env : Env) (t : Transaction) : Except Err Bytes32 :=
  match t.Entry.ExtIDs[0]? with
  | none => .error .runtimeFault
  | some extID => .ok (env.sha256d extID)

/-- The dereference `*idKey` of a pointer that may be nil. -/
def deref (idKey : Option Bytes32) : Except Err Bytes32 :=
  match idKey with
  | none => .error .runtimeFault
  | some k => .ok k

/-- The last two steps of `Valid`, on the unmarshaled transaction: the check of the RCDs
and the check of the signatures. -/
def validAuth (env : Env) (t : Transaction) (idKey : Option Bytes32) : Except Err Unit := do
  if Coinbase env t then
    let h ← RCDHash env t
    let k ← deref idKey
    if h ≠ k then throw Err.invalidRCD
  else
    let ok ← ValidRCDs env t
    if !ok then throw Err.invalidRCDs
  if !ValidSignatures env t then throw Err.invalidSignatures
  return ()

/-- The method `Transaction.Valid`. -/
def Valid (env : Env) (t : Transaction) (idKey : Option Bytes32) : Except Err Unit := do
  let t ← env.unmarshalEntry t
  ValidData env t
  ValidExtIDs env t
  validAuth env t idKey

/-- The struct `addressAmount`, over the type that stands for `factom.Address`. -/
structure addressAmount (Address : Type) where
  Address : Address
  Amount : Nat
  deriving DecidableEq, Repr

/-- What the JSON methods of `AddressAmountMap` use from package `factom` and from
`encoding/json`. -/
structure Codec (Address : Type) where
  /-- the method `Address.RCDHash` -/
  RCDHash : Address → Bytes32
  /-- the function `factom.NewAddress` -/
  NewAddress : Bytes32 → Address
  /-- the zero value of `factom.Address` -/
  zeroAddress : Address
  /-- the call `json.Unmarshal(data, &aaS)` -/
  jsonUnmarshal : Bytes → Except Err (List (addressAmount Address))
  /-- the call `json.Marshal(aaS)` -/
  jsonMarshal : List (addressAmount Address) → Except Err Bytes

/-- The loop of `UnmarshalJSON` over the records that are left, `aam` being the map
built so far. -/
def unmarshalLoop {Address : Type} (c : Codec Address) :
    List (addressAmount Address) → AddressAmountMap → Except Err AddressAmountMap
  | [], aam => .ok aam
  | aa :: rest, aam =>
    if aa.Amount = 0 then .error .zeroAmount
    else if hasKey aam (c.RCDHash aa.Address) then .error .duplicateAddress
    else unmarshalLoop c rest (store aam (c.RCDHash aa.Address) aa.Amount)

/-- The records stage of `UnmarshalJSON`: the loop run on a decoded slice `aaS`, from
the empty map. -/
def unmarshalRecords {Address : Type} (c : Codec Address)
    (aaS : List (addressAmount Address)) : Except Err AddressAmountMap :=
  unmarshalLoop c aaS []

/-- The method `AddressAmountMap.UnmarshalJSON`, on the receiver `a`: the error returned
and the receiver after the call. -/
def UnmarshalJSON {Address : Type} (c : Codec Address) (a : AddressAmountMap)
    (data : Bytes) : Except Err Unit × AddressAmountMap :=
  match c.jsonUnmarshal data with
  | .error e => (.error e, a)
  | .ok aaS =>
    match unmarshalRecords c aaS with
    | .error e => (.error e, a)
    | .ok aam => (.ok (), aam)

/-- The loop of `MarshalJSON` over the entries that are left, `aaS` being the slice and
`i` the next index to fill. -/
def marshalLoop {Address : Type} (c : Codec Address) :
    AddressAmountMap → List (addressAmount Address) → Nat → List (addressAmount Address)
  | [], aaS, _ => aaS
  | (rcdHash, amount) :: rest, aaS, i =>
    if amount = 0 then marshalLoop c rest aaS i
    else marshalLoop c rest (aaS.set i ⟨c.NewAddress rcdHash, amount⟩) (i + 1)

/-- The slice `aaS` that `MarshalJSON` hands to `json.Marshal`: it is allocated with
`len(a)` zero records and filled by the loop. -/
def marshalRecords {Address : Type} (c : Codec Address) (a : AddressAmountMap) :
    List (addressAmount Address) :=
  marshalLoop c a (List.replicate a.length ⟨c.zeroAddress, 0⟩) 0

/-- The method `AddressAmountMap.MarshalJSON`. -/
def MarshalJSON {Address : Type} (c : Codec Address) (a : AddressAmountMap) :
    Except Err Bytes :=
  c.jsonMarshal (marshalRecords c a)

/-! ## Data at which the statements are instantiated, and specification-side notions -/

/-- A small environment: the hash is the byte sum plus `100`, RCDs are two bytes long
with type byte `1`, signatures are one byte long, every signature verifies and the
entry unmarshals to the transaction as given. -/
def sampleEnv : Env where
  sha256d := fun b => b.sum + 100
  coinbase := 0
  RCDSize := 2
  RCDType := 1
  SignatureSize := 1
  unmarshalEntry := fun t => .ok t
  validSignatures := fun _ _ => true

/-- A transfer of `5` from the address `107` to the addresses `8` and `9`, authorised by
the RCD `[1, 6]`, whose hash in `sampleEnv` is `107`. -/
def sampleTx : Transaction :=
  ⟨[(107, 5)], [(8, 2), (9, 3)], 7, "", ⟨[[1, 6], [0]], [], 10⟩⟩

/-- A coinbase transaction: its only input is the coinbase address `0` of `sampleEnv`. -/
def sampleCoinbaseTx : Transaction :=
  ⟨[(0, 5)], [(8, 2), (9, 3)], 10, "", ⟨[[1, 6], [0]], [], 10⟩⟩

/-- The input total `1` and the output total `2 ^ 64 + 1`: every amount is a positive
`uint64`, every address is distinct, the heights agree. -/
def overflowTx : Transaction :=
  ⟨[(1, 1)], [(2, 2 ^ 63), (3, 2 ^ 63), (4, 1)], 0, "", ⟨[], [], 0⟩⟩

/-- The sum of the amounts as an unbounded integer. -/
def exactSum (aam : AddressAmountMap) : Nat := (aam.map Prod.snd).sum

/-- The result of the signature step, the last of `Valid`. -/
def signatureStep (env : Env) (t : Transaction) : Except Err Unit :=
  if ValidSignatures env t then .ok () else .error .invalidSignatures

/-- A codec whose addresses are their own commitments. Its `json.Unmarshal` yields the
records `[(5, 1), (6, 2)]` for every input and its `json.Marshal` the empty byte string. -/
def sampleCodec : Codec Nat where
  RCDHash := fun a => a
  NewAddress := fun h => h
  zeroAddress := 0
  jsonUnmarshal := fun _ => .ok [⟨5, 1⟩, ⟨6, 2⟩]
  jsonMarshal := fun _ => .ok []

/-- The address commitments of a list of records, in order. -/
def commitments {Address : Type} (c : Codec Address) (aaS : List (addressAmount Address)) :
    List Bytes32 :=
  aaS.map (fun aa => c.RCDHash aa.Address)

/-- The records that `MarshalJSON` writes for the entries with a non-zero amount, in
iteration order. -/
def nonZeroRecords {Address : Type} (c : Codec Address) (a : AddressAmountMap) :
    List (addressAmount Address) :=
  (a.filter (fun p => p.2 ≠ 0)).map (fun p => ⟨c.NewAddress p.1, p.2⟩)

/-- The entry that `UnmarshalJSON` stores for a record: its address commitment and its
amount. -/
def entryOf {Address : Type} (c : Codec Address) (aa : addressAmount Address) :
    Bytes32 × Nat :=
  (c.RCDHash aa.Address, aa.Amount)

/-- External IDs laid out as RCD and signature pairs: pair `i` stands at the positions
`2 * i` and `2 * i + 1`. -/
def pairsToExtIDs : List (Bytes × Bytes) → List Bytes
  | [] => []
  | p :: rest => p.1 :: p.2 :: pairsToExtIDs rest

/-- The transaction `t` with other external IDs. -/
def withExtIDs (t : Transaction) (extIDs : List Bytes) : Transaction :=
  { t with Entry := { t.Entry with ExtIDs := extIDs } }

/-- The hashes of the external IDs at the positions `2 * i`, for `i` below the number of
inputs and within the external IDs. -/
def rcdHashes (env : Env) (t : Transaction) : List Bytes32 :=
  (List.range t.Inputs.length).filterMap
    (fun i => (t.Entry.ExtIDs[2 * i]?).map env.sha256d)

/-! ## Package `db`: the query builder of `sql.go` -/

/-- The constant `MaxLimit`. -/
def MaxLimit : Nat := 600

/-- Multiplication of `uint64` operands, wrapping modulo `2 ^ 64`. -/
def mul64 (a b : Nat) : Nat := (a * b) % 2 ^ 64

/-- The conversion `int64(x)` of a `uint64` value: the two's complement reading of its
64 bits. -/
def toInt64 (x : Nat) : Int :=
  if x % 2 ^ 64 < 2 ^ 63 then ((x % 2 ^ 64 : Nat) : Int) else ((x % 2 ^ 64 : Nat) : Int) - 2 ^ 64

/-- What is used of a `sqlite.Stmt`: its query and the calls of `BindInt64` made on it,
each with its parameter index and its value, in order. -/
structure Stmt where
  query : String
  bound : List (Nat × Int)
  deriving DecidableEq, Repr

/-- The method `Stmt.BindInt64`. -/
def Stmt.BindInt64 (s : Stmt) (param : Nat) (value : Int) : Stmt :=
  { s with bound := s.bound ++ [(param, value)] }

/-- The type `bindFunc`: given the statement and the first parameter index, the
statement after the binds and the number of binds made. -/
abbrev bindFunc := Stmt → Nat → Stmt × Nat

/-- The struct `sql`. Its field `sql`, a `strings.Builder`, is the field `text` here. -/
structure sql where
  text : String
  binds : List bindFunc

/-- The method `sql.Append`. -/
def sql.Append (q : sql) (str : String) (binds : List bindFunc) : sql :=
  { text := q.text ++ str, binds := q.binds ++ binds }

/-- The text that `Paginate` appends. -/
def limitClause : String := " LIMIT ?, ?"

/-- The method `sql.Paginate`. -/
def sql.Paginate (q : sql) (page limit : Nat) : sql :=
  let limit := if limit = 0 ∨ limit > MaxLimit then MaxLimit else limit
  q.Append limitClause [fun s p =>
    ((s.BindInt64 p (toInt64 (mul64 (sub64 page 1) limit))).BindInt64 (p + 1) (toInt64 limit), 2)]

/-- The loop of `sql.Prep` over the queued binds, `param` being the next parameter
index. -/
def runBinds : List bindFunc → Stmt → Nat → Stmt
  | [], stmt, _ => stmt
  | bind :: rest, stmt, param =>
    let r := bind stmt param
    runBinds rest r.1 (param + r.2)

/-- The method `sql.Prep`: the statement that `conn.Prep` makes of the query text is the
one with that text and no binds yet. -/
def sql.Prep (q : sql) : Stmt :=
  runBinds q.binds { query := q.text ++ ";", bound := [] } 1

/-- The query that is empty before `Paginate`. -/
def emptyQuery : sql := { text := "", binds := [] }

/-- A JSON stand-in for records whose addresses are numbers: the addresses and amounts
written one after the other. -/
def encodePairs : List (addressAmount Nat) → Bytes
  | [] => []
  | aa :: rest => aa.Address :: aa.Amount :: encodePairs rest

/-- The inverse of `encodePairs`; a byte string of odd length is malformed. -/
def decodePairs : Bytes → Except Err (List (addressAmount Nat))
  | [] => .ok []
  | [_] => .error (.json 0)
  | address :: amount :: rest =>
    match decodePairs rest with
    | .error e => .error e
    | .ok aaS => .ok (⟨address, amount⟩ :: aaS)

/-- A codec whose addresses are their own commitments and whose JSON stand-in is
`encodePairs` and `decodePairs`. -/
def pairCodec : Codec Nat where
  RCDHash := fun a => a
  NewAddress := fun h => h
  zeroAddress := 0
  jsonUnmarshal := decodePairs
  jsonMarshal := fun aaS => .ok (encodePairs aaS)

/-- A transfer with the two inputs `107` and `109`, authorised by the RCDs `[1, 6]` and
`[1, 8]`, whose hashes in `sampleEnv` are `107` and `109`. -/
def twoInputTx : Transaction :=
  ⟨[(107, 2), (109, 3)], [(8, 5)], 10, "", ⟨[[1, 6], [0], [1, 8], [0]], [], 10⟩⟩

/-- The height rule is violated: the entry height minus the declared height, as an
integer, is negative or greater than `3`. -/
def heightViolated (t : Transaction) : Prop :=
  (t.Entry.Height : Int) - (t.Height : Int) < 0 ∨ (t.Entry.Height : Int) - (t.Height : Int) > 3

/-- The coinbase rule is violated: the coinbase address is an input and there is more
than one input. -/
def coinbaseViolated (env : Env) (t : Transaction) : Prop :=
  env.coinbase ∈ keys t.Inputs ∧ 1 < t.Inputs.length

/-- The overlap rule is violated: some address is both an input and an output. -/
def overlapViolated (t : Transaction) : Prop :=
  ∃ k, k ∈ keys t.Inputs ∧ k ∈ keys t.Outputs

/-- A transaction with a stale height and no inputs. -/
def staleEmptyTx : Transaction :=
  ⟨[], [(8, 5)], 6, "", ⟨[], [], 10⟩⟩

/-- The row limit that `Paginate` is to bind: the limit itself when it is between `1`
and `600`, and `600` otherwise. -/
def effectiveLimit (limit : Nat) : Nat :=
  if 1 ≤ limit ∧ limit ≤ 600 then limit else 600

/-- The value bound first when a query is prepared, if any: for a query that was empty
before `Paginate`, the offset. -/
def firstBound (q : sql) : Option Int :=
  (q.Prep.bound.head?).map Prod.snd


/-! ## Maps -/

theorem hasKey_iff (m : AddressAmountMap) (k : Bytes32) :
    hasKey m k = true ↔ k ∈ keys m := by
  simp only [hasKey, keys, List.any_eq_true, List.mem_map]
  constructor
  · rintro ⟨p, hp, hk⟩
    exact ⟨p, hp, by simpa using hk⟩
  · rintro ⟨p, hp, hk⟩
    exact ⟨p, hp, by simpa using hk⟩

theorem hasKey_eq_false_iff (m : AddressAmountMap) (k : Bytes32) :
    hasKey m k = false ↔ k ∉ keys m := by
  rw [← hasKey_iff]
  cases hasKey m k <;> simp

theorem mem_keys_store (m : AddressAmountMap) (k x : Bytes32) (v : Nat) :
    x ∈ keys (store m k v) ↔ x = k ∨ x ∈ keys m := by
  unfold store
  split
  · rename_i hk
    rw [hasKey_iff] at hk
    simp only [keys, List.map_map, List.mem_map, Function.comp]
    constructor
    · rintro ⟨p, hp, rfl⟩
      by_cases hpk : p.1 = k
      · left; simp [hpk]
      · right; exact ⟨p, hp, by simp [hpk]⟩
    · rintro (rfl | ⟨p, hp, rfl⟩)
      · simp only [keys, List.mem_map] at hk
        obtain ⟨q, hq, hqk⟩ := hk
        exact ⟨q, hq, by simp [hqk]⟩
      · by_cases hpk : p.1 = k
        · exact ⟨p, hp, by simp [hpk]⟩
        · exact ⟨p, hp, by simp [hpk]⟩
  · simp only [keys, List.map_append, List.mem_append, List.map_cons, List.map_nil,
      List.mem_singleton]
    tauto

/-! ## The loops -/

theorem forEach_ok_iff (l : List Nat) (body : Nat → Except Err Unit) :
    forEach l body = .ok () ↔ ∀ i ∈ l, body i = .ok () := by
  induction l with
  | nil => simp [forEach]
  | cons i rest ih =>
    simp only [forEach, List.mem_cons, forall_eq_or_imp]
    cases hb : body i with
    | error e => simp
    | ok u => simp [ih]

theorem collectRCDHashes_total (env : Env) (extIDs : List Bytes) (l : List Nat)
    (m : AddressAmountMap) (hl : ∀ i ∈ l, i * 2 < extIDs.length) :
    ∃ m', collectRCDHashes env extIDs l m = .ok m' ∧
      ∀ x, x ∈ keys m' ↔ x ∈ keys m ∨ ∃ i ∈ l, ∃ rcd, extIDs[i * 2]? = some rcd ∧
        x = env.sha256d rcd := by
  induction l generalizing m with
  | nil => exact ⟨m, rfl, by simp⟩
  | cons i rest ih =>
    have hi : i * 2 < extIDs.length := hl i (List.mem_cons_self _ _)
    obtain ⟨m', hm', hkeys⟩ := ih (store m (env.sha256d extIDs[i * 2]) 0)
      (fun j hj => hl j (List.mem_cons_of_mem _ hj))
    refine ⟨m', ?_, ?_⟩
    · simp only [collectRCDHashes, List.getElem?_eq_getElem hi]
      exact hm'
    · intro x
      rw [hkeys x, mem_keys_store]
      simp only [List.mem_cons, exists_eq_or_imp, List.getElem?_eq_getElem hi,
        Option.some.injEq, exists_eq_left']
      tauto

/-! ## What the checks establish -/

theorem ValidData_ok_iff (env : Env) (t : Transaction) :
    ValidData env t = .ok () ↔
      heightGuard sub64 t.Entry.Height t.Height = false ∧ t.Inputs.length ≠ 0 ∧
      t.Outputs.length ≠ 0 ∧ sum t.Inputs = sum t.Outputs ∧
      (Coinbase env t && decide (t.Inputs.length ≠ 1)) = false ∧
      emptyIntersection t.Inputs t.Outputs = true := by
  unfold ValidData
  cases h1 : heightGuard sub64 t.Entry.Height t.Height
  swap
  · simp
  by_cases h2 : t.Inputs.length = 0
  · simp [h2]
  by_cases h3 : t.Outputs.length = 0
  · simp [h2, h3]
  by_cases h4 : sum t.Inputs = sum t.Outputs
  swap
  · simp [h2, h3, h4]
  cases h5 : (Coinbase env t && decide (t.Inputs.length ≠ 1))
  swap
  · simp only [h2, h3, h4, h5]; simp
  cases h6 : emptyIntersection t.Inputs t.Outputs
  · simp only [h2, h3, h4, h5]; simp
  · simp only [h2, h3, h4, h5]
    simp
    exact ⟨fun h => h2 (by simp [h]), fun h => h3 (by simp [h])⟩

theorem ValidExtIDs_ok_iff (env : Env) (t : Transaction) :
    ValidExtIDs env t = .ok () ↔
      2 * t.Inputs.length ≤ t.Entry.ExtIDs.length ∧
      ∀ i < t.Inputs.length, checkPair env t.Entry.ExtIDs i = .ok () := by
  unfold ValidExtIDs
  split
  · rename_i h
    simp only [false_iff, not_and, reduceCtorEq]
    intro h'
    omega
  · rename_i h
    rw [forEach_ok_iff]
    simp only [List.mem_range]
    constructor
    · intro hb
      exact ⟨by omega, hb⟩
    · exact fun hb => hb.2

theorem RCDHash_of_valid (env : Env) (t : Transaction) (hd : ValidData env t = .ok ())
    (he : ValidExtIDs env t = .ok ()) :
    ∃ rcd, t.Entry.ExtIDs[0]? = some rcd ∧ RCDHash env t = .ok (env.sha256d rcd) := by
  rw [ValidData_ok_iff] at hd
  rw [ValidExtIDs_ok_iff] at he
  have hpos : 0 < t.Entry.ExtIDs.length := by omega
  refine ⟨t.Entry.ExtIDs[0], List.getElem?_eq_getElem hpos, ?_⟩
  simp [RCDHash, List.getElem?_eq_getElem hpos]

theorem ValidRCDs_of_length (env : Env) (t : Transaction)
    (he : 2 * t.Inputs.length ≤ t.Entry.ExtIDs.length) :
    ∃ b, ValidRCDs env t = .ok b ∧
      (b = true ↔ ∀ k ∈ keys t.Inputs, ∃ i < t.Inputs.length, ∃ rcd,
        t.Entry.ExtIDs[2 * i]? = some rcd ∧ k = env.sha256d rcd) := by
  obtain ⟨m', hm', hkeys⟩ := collectRCDHashes_total env t.Entry.ExtIDs
    (List.range t.Inputs.length) [] (fun i hi => by
      rw [List.mem_range] at hi
      omega)
  refine ⟨t.Inputs.all (fun p => hasKey m' p.1), by simp [ValidRCDs, hm'], ?_⟩
  have hcov : ∀ x, x ∈ keys m' ↔ ∃ i < t.Inputs.length, ∃ rcd,
      t.Entry.ExtIDs[2 * i]? = some rcd ∧ x = env.sha256d rcd := by
    intro x
    rw [hkeys x]
    constructor
    · rintro (h | ⟨i, hi, rcd, hr, hx⟩)
      · simp [keys] at h
      · exact ⟨i, List.mem_range.mp hi, rcd, by rwa [Nat.mul_comm], hx⟩
    · rintro ⟨i, hi, rcd, hr, hx⟩
      exact Or.inr ⟨i, List.mem_range.mpr hi, rcd, by rwa [Nat.mul_comm], hx⟩
  rw [List.all_eq_true]
  constructor
  · intro h k hk
    obtain ⟨p, hp, rfl⟩ := List.mem_map.mp hk
    exact (hcov p.1).mp ((hasKey_iff m' p.1).mp (h p hp))
  · intro h p hp
    exact (hasKey_iff m' p.1).mpr ((hcov p.1).mpr (h p.1 (List.mem_map.mpr ⟨p, hp, rfl⟩)))

/-! ## The pipeline, step by step -/

theorem Valid_of_unmarshal_error (env : Env) (t : Transaction) (idKey : Option Bytes32)
    (e : Err) (hu : env.unmarshalEntry t = .error e) : Valid env t idKey = .error e := by
  simp [Valid, hu, bind, Except.bind]

theorem Valid_of_data_error (env : Env) (t t' : Transaction) (idKey : Option Bytes32)
    (e : Err) (hu : env.unmarshalEntry t = .ok t') (hd : ValidData env t' = .error e) :
    Valid env t idKey = .error e := by
  simp [Valid, hu, hd, bind, Except.bind]

theorem Valid_of_extIDs_error (env : Env) (t t' : Transaction) (idKey : Option Bytes32)
    (e : Err) (hu : env.unmarshalEntry t = .ok t') (hd : ValidData env t' = .ok ())
    (he : ValidExtIDs env t' = .error e) : Valid env t idKey = .error e := by
  simp [Valid, hu, hd, he, bind, Except.bind]

theorem Valid_eq_validAuth (env : Env) (t t' : Transaction) (idKey : Option Bytes32)
    (hu : env.unmarshalEntry t = .ok t') (hd : ValidData env t' = .ok ())
    (he : ValidExtIDs env t' = .ok ()) : Valid env t idKey = validAuth env t' idKey := by
  simp [Valid, hu, hd, he, bind, Except.bind]

theorem validAuth_coinbase (env : Env) (t : Transaction) (k h : Bytes32)
    (hc : Coinbase env t = true) (hr : RCDHash env t = .ok h) :
    validAuth env t (some k) =
      if h ≠ k then .error .invalidRCD else signatureStep env t := by
  unfold validAuth signatureStep
  by_cases hk : h = k <;> cases hs : ValidSignatures env t <;>
    simp [hc, hr, hk, hs, deref, bind, Except.bind, pure, Except.pure, throw, throwThe,
      MonadExceptOf.throw]

theorem validAuth_regular (env : Env) (t : Transaction) (idKey : Option Bytes32) (b : Bool)
    (hc : Coinbase env t = false) (hr : ValidRCDs env t = .ok b) :
    validAuth env t idKey =
      if b = false then .error .invalidRCDs else signatureStep env t := by
  unfold validAuth signatureStep
  cases b <;> cases hs : ValidSignatures env t <;>
    simp [hc, hr, hs, bind, Except.bind, pure, Except.pure, throw, throwThe,
      MonadExceptOf.throw]

/-! ## The claims -/

/-- C1. `Valid` with a non-nil `idKey` is fail-fast in a fixed order. An error of
`UnmarshalEntry` is returned as it is; otherwise an error of `ValidData`; otherwise an
error of `ValidExtIDs`; otherwise, for a transaction with the coinbase address among its
inputs, "invalid RCD" when the hash of `ExtIDs[0]` differs from the key, and for any
other transaction "invalid RCDs" when `ValidRCDs` is false; otherwise "invalid
signatures" when `ValidSignatures` is false. Neither `RCDHash` nor `ValidRCDs` faults
once the first three steps have passed, and `Valid` returns nil exactly when all five
steps pass. -/
theorem Valid_fail_fast (env : Env) (t : Transaction) (k : Bytes32) :
    (∀ e, env.unmarshalEntry t = .error e → Valid env t (some k) = .error e) ∧
    (∀ t', env.unmarshalEntry t = .ok t' →
      (∀ e, ValidData env t' = .error e → Valid env t (some k) = .error e) ∧
      (ValidData env t' = .ok () →
        (∀ e, ValidExtIDs env t' = .error e → Valid env t (some k) = .error e) ∧
        (ValidExtIDs env t' = .ok () →
          (Coinbase env t' = true →
            ∃ rcd, t'.Entry.ExtIDs[0]? = some rcd ∧
              RCDHash env t' = .ok (env.sha256d rcd) ∧
              (env.sha256d rcd ≠ k → Valid env t (some k) = .error .invalidRCD) ∧
              (env.sha256d rcd = k → ValidSignatures env t' = false →
                Valid env t (some k) = .error .invalidSignatures)) ∧
          (Coinbase env t' = false →
            ∃ b, ValidRCDs env t' = .ok b ∧
              (b = false → Valid env t (some k) = .error .invalidRCDs) ∧
              (b = true → ValidSignatures env t' = false →
                Valid env t (some k) = .error .invalidSignatures))))) ∧
    (Valid env t (some k) = .ok () ↔
      ∃ t', env.unmarshalEntry t = .ok t' ∧ ValidData env t' = .ok () ∧
        ValidExtIDs env t' = .ok () ∧
        (if Coinbase env t' = true then RCDHash env t' = .ok k
          else ValidRCDs env t' = .ok true) ∧
        ValidSignatures env t' = true) := by
  refine ⟨fun e hu => Valid_of_unmarshal_error env t _ e hu, ?_, ?_⟩
  · intro t' hu
    refine ⟨fun e hd => Valid_of_data_error env t t' _ e hu hd, fun hd => ?_⟩
    refine ⟨fun e he => Valid_of_extIDs_error env t t' _ e hu hd he, fun he => ?_⟩
    rw [Valid_eq_validAuth env t t' _ hu hd he]
    constructor
    · intro hc
      obtain ⟨rcd, h0, hr⟩ := RCDHash_of_valid env t' hd he
      refine ⟨rcd, h0, hr, ?_, ?_⟩
      · intro hk
        rw [validAuth_coinbase env t' k _ hc hr, if_pos hk]
      · intro hk hs
        rw [validAuth_coinbase env t' k _ hc hr, if_neg (not_not.mpr hk)]
        simp [signatureStep, hs]
    · intro hc
      obtain ⟨b, hb, -⟩ := ValidRCDs_of_length env t' ((ValidExtIDs_ok_iff env t').mp he).1
      refine ⟨b, hb, ?_, ?_⟩
      · intro hf
        rw [validAuth_regular env t' _ b hc hb, if_pos hf]
      · intro ht hs
        rw [validAuth_regular env t' _ b hc hb, if_neg (by simp [ht])]
        simp [signatureStep, hs]
  · constructor
    · intro hv
      cases hu : env.unmarshalEntry t with
      | error e => rw [Valid_of_unmarshal_error env t _ e hu] at hv; cases hv
      | ok t' =>
        cases hd : ValidData env t' with
        | error e => rw [Valid_of_data_error env t t' _ e hu hd] at hv; cases hv
        | ok u =>
          cases he : ValidExtIDs env t' with
          | error e => rw [Valid_of_extIDs_error env t t' _ e hu hd he] at hv; cases hv
          | ok u' =>
            refine ⟨t', rfl, hd, he, ?_⟩
            rw [Valid_eq_validAuth env t t' _ hu hd he] at hv
            cases hc : Coinbase env t' with
            | true =>
              obtain ⟨rcd, -, hr⟩ := RCDHash_of_valid env t' hd he
              rw [validAuth_coinbase env t' k _ hc hr] at hv
              by_cases hk : env.sha256d rcd = k
              · rw [if_neg (not_not.mpr hk)] at hv
                cases hs : ValidSignatures env t' with
                | false => simp [signatureStep, hs] at hv
                | true => simp [hr, hk]
              · rw [if_pos hk] at hv; cases hv
            | false =>
              obtain ⟨b, hb, -⟩ :=
                ValidRCDs_of_length env t' ((ValidExtIDs_ok_iff env t').mp he).1
              rw [validAuth_regular env t' _ b hc hb] at hv
              cases b with
              | false => simp at hv
              | true =>
                cases hs : ValidSignatures env t' with
                | false => simp [signatureStep, hs] at hv
                | true => simp [hb]
    · rintro ⟨t', hu, hd, he, h4, hs⟩
      rw [Valid_eq_validAuth env t t' _ hu hd he]
      cases hc : Coinbase env t' with
      | true =>
        rw [hc] at h4
        simp only [if_true] at h4
        rw [validAuth_coinbase env t' k k hc h4]
        simp [signatureStep, hs]
      | false =>
        rw [hc] at h4
        simp only [Bool.false_eq_true, if_false] at h4
        rw [validAuth_regular env t' _ true hc h4]
        simp [signatureStep, hs]

/-- C1, instantiated: in `sampleEnv` the transfer `sampleTx` passes all five steps. -/
theorem Valid_fail_fast_witness : Valid sampleEnv sampleTx (some 1) = .ok () :=
  (Valid_fail_fast sampleEnv sampleTx 1).2.2.mpr
    ⟨sampleTx, rfl, by decide, by decide, by decide, by decide⟩

theorem sum_foldl_mod (aam : AddressAmountMap) (s : Nat) :
    aam.foldl (fun s p => (s + p.2) % 2 ^ 64) s = (s + exactSum aam) % 2 ^ 64 ∨
      (aam = [] ∧ aam.foldl (fun s p => (s + p.2) % 2 ^ 64) s = s) := by
  induction aam generalizing s with
  | nil => right; exact ⟨rfl, rfl⟩
  | cons p rest ih =>
    left
    rcases ih ((s + p.2) % 2 ^ 64) with h | ⟨hnil, h⟩
    · rw [List.foldl_cons, h]
      simp only [exactSum, List.map_cons, List.sum_cons]
      omega
    · rw [List.foldl_cons, h, hnil]
      simp [exactSum]

/-- The `uint64` total that `sum` returns is the exact total modulo `2 ^ 64`. -/
theorem sum_eq_exactSum_mod (aam : AddressAmountMap) : sum aam = exactSum aam % 2 ^ 64 := by
  rcases sum_foldl_mod aam 0 with h | ⟨hnil, -⟩
  · simpa [sum] using h
  · subst hnil; rfl

/-- C2, the failing transaction: `ValidData` returns nil for `overflowTx` in every
environment, although its exact input total is `1` and its exact output total is
`2 ^ 64 + 1`; the two totals only agree as `uint64` values. -/
theorem ValidData_accepts_overflow (env : Env) :
    ValidData env overflowTx = .ok () ∧
      exactSum overflowTx.Inputs = 1 ∧ exactSum overflowTx.Outputs = 2 ^ 64 + 1 ∧
      exactSum overflowTx.Inputs ≠ exactSum overflowTx.Outputs ∧
      sum overflowTx.Inputs = sum overflowTx.Outputs := by
  refine ⟨?_, by decide, by decide, by decide, by decide⟩
  rw [ValidData_ok_iff]
  refine ⟨by decide, by decide, by decide, by decide, ?_, by decide⟩
  simp [overflowTx]

theorem sub64_of_le (H h : Nat) (hH : H < 2 ^ 64) (hle : h ≤ H) : sub64 H h = H - h := by
  unfold sub64
  omega

/-- C3. For an entry height within `uint64`, `ValidData` returns "invalid height" exactly when the
integer difference between the entry height and the declared height is negative or
greater than `3`. Differences `0` and `3` pass the guard and `4` does not. When the
declared height is the greater one the guard holds whatever the subtraction would
return, and whenever the subtraction does decide the guard it does not wrap. -/
theorem height_bound (env : Env) (t : Transaction) (hH : t.Entry.Height < 2 ^ 64) :
    (ValidData env t = .error .invalidHeight ↔
      (t.Entry.Height : Int) - (t.Height : Int) < 0 ∨
        (t.Entry.Height : Int) - (t.Height : Int) > 3) ∧
    (heightGuard sub64 t.Entry.Height t.Height = true ↔
      (t.Entry.Height : Int) - (t.Height : Int) < 0 ∨
        (t.Entry.Height : Int) - (t.Height : Int) > 3) ∧
    (t.Entry.Height = t.Height → heightGuard sub64 t.Entry.Height t.Height = false) ∧
    (t.Entry.Height = t.Height + 3 → heightGuard sub64 t.Entry.Height t.Height = false) ∧
    (t.Entry.Height = t.Height + 4 → heightGuard sub64 t.Entry.Height t.Height = true) ∧
    (t.Height > t.Entry.Height →
      ∀ sub : Nat → Nat → Nat, heightGuard sub t.Entry.Height t.Height = true) ∧
    (t.Height ≤ t.Entry.Height →
      sub64 t.Entry.Height t.Height = t.Entry.Height - t.Height) := by
  have hguard : heightGuard sub64 t.Entry.Height t.Height = true ↔
      (t.Entry.Height : Int) - (t.Height : Int) < 0 ∨
        (t.Entry.Height : Int) - (t.Height : Int) > 3 := by
    simp only [heightGuard, MaxHeightDifference, Bool.or_eq_true, decide_eq_true_eq]
    by_cases hle : t.Height ≤ t.Entry.Height
    · rw [sub64_of_le _ _ hH hle]
      omega
    · constructor
      · intro _; left; omega
      · intro _; left; omega
  refine ⟨?_, hguard, ?_, ?_, ?_, ?_, ?_⟩
  · rw [← hguard]
    unfold ValidData
    cases hg : heightGuard sub64 t.Entry.Height t.Height
    · simp only [Bool.false_eq_true, if_false, iff_false]
      split_ifs <;> simp
    · simp
  · intro he
    cases hg : heightGuard sub64 t.Entry.Height t.Height
    · rfl
    · exact absurd (hguard.mp hg) (by omega)
  · intro he
    cases hg : heightGuard sub64 t.Entry.Height t.Height
    · rfl
    · exact absurd (hguard.mp hg) (by omega)
  · intro he
    exact hguard.mpr (Or.inr (by omega))
  · intro hgt sub
    simp [heightGuard, hgt]
  · intro hle
    exact sub64_of_le _ _ hH hle

/-- C3, instantiated: the entry is at height `10` and the transaction declares height
`7`, so the difference is the boundary value `3`. -/
theorem height_bound_witness :
    ¬ (ValidData sampleEnv sampleTx = .error .invalidHeight) ∧
      heightGuard sub64 10 7 = false :=
  ⟨fun h => absurd ((height_bound sampleEnv sampleTx (by decide)).1.mp h)
      (by decide),
    (height_bound sampleEnv sampleTx (by decide)).2.2.2.1 (by decide)⟩

theorem all_not_hasKey_iff (s l : AddressAmountMap) :
    s.all (fun p => !hasKey l p.1) = true ↔ ∀ k, ¬ (k ∈ keys s ∧ k ∈ keys l) := by
  rw [List.all_eq_true]
  constructor
  · rintro h k ⟨hs, hl⟩
    obtain ⟨p, hp, rfl⟩ := List.mem_map.mp hs
    have := h p hp
    rw [(hasKey_iff l p.1).mpr hl] at this
    cases this
  · intro h p hp
    cases hk : hasKey l p.1
    · rfl
    · exact absurd ⟨List.mem_map.mpr ⟨p, hp, rfl⟩, (hasKey_iff l p.1).mp hk⟩ (h p.1)

theorem emptyIntersection_iff (a b : AddressAmountMap) :
    emptyIntersection a b = true ↔ ∀ k, ¬ (k ∈ keys a ∧ k ∈ keys b) := by
  unfold emptyIntersection
  by_cases hlen : b.length < a.length
  · simp only [hlen, if_true]
    rw [all_not_hasKey_iff]
    exact forall_congr' fun k => not_congr and_comm
  · simp only [hlen, if_false]
    exact all_not_hasKey_iff a b

/-- C4. `emptyIntersection a b` is true exactly when no address is a key of both maps,
whichever of the two is the shorter one that the loop ranges over; and when `ValidData`
returns nil no address is a key of both the inputs and the outputs. -/
theorem no_self_dealing :
    (∀ a b : AddressAmountMap,
      emptyIntersection a b = true ↔ ∀ k, ¬ (k ∈ keys a ∧ k ∈ keys b)) ∧
    (∀ (env : Env) (t : Transaction), ValidData env t = .ok () →
      ∀ k, ¬ (k ∈ keys t.Inputs ∧ k ∈ keys t.Outputs)) :=
  ⟨emptyIntersection_iff, fun env t hd =>
    (emptyIntersection_iff t.Inputs t.Outputs).mp ((ValidData_ok_iff env t).mp hd).2.2.2.2.2⟩

/-- C4, instantiated: the address `107` of `sampleTx` is an input and not an output. -/
theorem no_self_dealing_witness :
    ¬ ((107 : Bytes32) ∈ keys sampleTx.Inputs ∧ (107 : Bytes32) ∈ keys sampleTx.Outputs) :=
  no_self_dealing.2 sampleEnv sampleTx (by decide) 107

/-- C5. `Coinbase` is true exactly when the coinbase address is a key of the inputs.
For a transaction that passes the height, emptiness and balance checks, `ValidData`
returns "invalid coinbase transaction" exactly when the coinbase address is a key of the
inputs and the number of inputs is not one. Hence when `ValidData` returns nil for a
coinbase transaction, the coinbase address is its only input. -/
theorem coinbase_cardinality (env : Env) (t : Transaction) :
    (Coinbase env t = true ↔ env.coinbase ∈ keys t.Inputs) ∧
    (heightGuard sub64 t.Entry.Height t.Height = false → t.Inputs.length ≠ 0 →
      t.Outputs.length ≠ 0 → sum t.Inputs = sum t.Outputs →
      (ValidData env t = .error .invalidCoinbase ↔
        env.coinbase ∈ keys t.Inputs ∧ t.Inputs.length ≠ 1)) ∧
    (ValidData env t = .ok () → Coinbase env t = true →
      t.Inputs.length = 1 ∧ keys t.Inputs = [env.coinbase] ∧
        ∃ amount, t.Inputs = [(env.coinbase, amount)]) := by
  have hcb : Coinbase env t = true ↔ env.coinbase ∈ keys t.Inputs := hasKey_iff _ _
  refine ⟨hcb, ?_, ?_⟩
  · intro h1 h2 h3 h4
    rw [← hcb]
    unfold ValidData
    simp only [h1, h2, h3, h4, Bool.false_eq_true, if_false, ne_eq, not_true_eq_false]
    cases hc : Coinbase env t
    · simp only [Bool.false_and, Bool.false_eq_true, if_false, false_and, iff_false]
      split_ifs <;> simp
    · by_cases h5 : t.Inputs.length = 1
      · simp only [h5, not_true_eq_false, decide_False, Bool.and_false, Bool.false_eq_true,
          if_false, and_false, iff_false]
        split_ifs <;> simp
      · simp [h5]
  · intro hd hc
    have h5 := ((ValidData_ok_iff env t).mp hd).2.2.2.2.1
    rw [hc] at h5
    have hlen : t.Inputs.length = 1 := by simpa using h5
    have hmem := hcb.mp hc
    obtain ⟨p, hp⟩ := List.length_eq_one.mp hlen
    rw [hp] at hmem
    simp only [keys, List.map_cons, List.map_nil, List.mem_singleton] at hmem
    refine ⟨hlen, ?_, p.2, ?_⟩
    · rw [hp]; simp [keys, hmem]
    · rw [hp, hmem]

/-- C5, instantiated: `sampleCoinbaseTx` passes `ValidData` and the coinbase address is
its only input. -/
theorem coinbase_cardinality_witness :
    sampleCoinbaseTx.Inputs.length = 1 ∧ keys sampleCoinbaseTx.Inputs = [sampleEnv.coinbase] ∧
      ∃ amount, sampleCoinbaseTx.Inputs = [(sampleEnv.coinbase, amount)] :=
  (coinbase_cardinality sampleEnv sampleCoinbaseTx).2.2 (by decide) (by decide)

theorem forEach_congr (l : List Nat) (body body' : Nat → Except Err Unit)
    (h : ∀ i ∈ l, body i = body' i) : forEach l body = forEach l body' := by
  induction l with
  | nil => rfl
  | cons i rest ih =>
    simp only [forEach, h i (List.mem_cons_self _ _)]
    rw [ih (fun j hj => h j (List.mem_cons_of_mem _ hj))]

theorem checkPair_ok_iff (env : Env) (extIDs : List Bytes) (i : Nat) :
    checkPair env extIDs i = .ok () ↔
      ∃ rcd sig, extIDs[2 * i]? = some rcd ∧ extIDs[2 * i + 1]? = some sig ∧
        rcd.length = env.RCDSize ∧ rcd[0]? = some env.RCDType ∧
        sig.length = env.SignatureSize := by
  unfold checkPair
  rw [Nat.mul_comm i 2]
  cases h0 : extIDs[2 * i]? with
  | none => simp
  | some rcd =>
    dsimp only
    by_cases hlen : rcd.length = env.RCDSize
    swap
    · simp [hlen]
    rw [if_neg (not_not.mpr hlen)]
    cases hb : rcd[0]? with
    | none => simp [hb]
    | some b =>
      dsimp only
      by_cases hty : b = env.RCDType
      swap
      · simp [hty, hb]
      rw [if_neg (not_not.mpr hty)]
      cases h1 : extIDs[2 * i + 1]? with
      | none => simp
      | some sig =>
        dsimp only
        by_cases hs : sig.length = env.SignatureSize
        · simp [hlen, hty, hs, hb]
        · simp [hlen, hty, hs, hb]

theorem checkPair_take (env : Env) (extIDs : List Bytes) (n i : Nat) (hi : i < n) :
    checkPair env (extIDs.take (2 * n)) i = checkPair env extIDs i := by
  unfold checkPair
  rw [List.getElem?_take_of_lt (by omega : i * 2 < 2 * n),
    List.getElem?_take_of_lt (by omega : i * 2 + 1 < 2 * n)]

theorem ValidExtIDs_take (env : Env) (t : Transaction) :
    ValidExtIDs env { t with Entry := { t.Entry with
        ExtIDs := t.Entry.ExtIDs.take (2 * t.Inputs.length) } } = ValidExtIDs env t := by
  unfold ValidExtIDs
  simp only [List.length_take]
  by_cases h : t.Entry.ExtIDs.length < 2 * t.Inputs.length
  · rw [if_pos h, if_pos (by omega)]
  · rw [if_neg h, if_neg (by omega)]
    exact forEach_congr _ _ _ fun i hi =>
      checkPair_take env t.Entry.ExtIDs t.Inputs.length i (List.mem_range.mp hi)

/-- C6. With `n` the number of inputs, `ValidExtIDs` returns nil exactly when there are
at least `2 * n` external IDs and, for every `i < n`, the one at `2 * i` has length
`RCDSize` and first byte `RCDType` and the one at `2 * i + 1` has length
`SignatureSize`. Two sequences of external IDs that agree on their first `2 * n`
positions give the same result, so what stands at position `2 * n` and beyond has no
effect. -/
theorem ValidExtIDs_structure (env : Env) (t : Transaction) :
    (ValidExtIDs env t = .ok () ↔
      2 * t.Inputs.length ≤ t.Entry.ExtIDs.length ∧
      ∀ i < t.Inputs.length, ∃ rcd sig,
        t.Entry.ExtIDs[2 * i]? = some rcd ∧ t.Entry.ExtIDs[2 * i + 1]? = some sig ∧
        rcd.length = env.RCDSize ∧ rcd[0]? = some env.RCDType ∧
        sig.length = env.SignatureSize) ∧
    (∀ extIDs : List Bytes,
      extIDs.take (2 * t.Inputs.length) = t.Entry.ExtIDs.take (2 * t.Inputs.length) →
      ValidExtIDs env { t with Entry := { t.Entry with ExtIDs := extIDs } } =
        ValidExtIDs env t) := by
  constructor
  · rw [ValidExtIDs_ok_iff]
    exact and_congr Iff.rfl
      (forall_congr' fun i => imp_congr Iff.rfl (checkPair_ok_iff env _ i))
  · intro extIDs htake
    have h1 := ValidExtIDs_take env { t with Entry := { t.Entry with ExtIDs := extIDs } }
    have h2 := ValidExtIDs_take env t
    simp only at h1
    rw [← h1, ← h2, htake]

/-- C6, instantiated: `sampleTx` carries one RCD and signature pair of the right shape,
and a third external ID appended to them changes nothing. -/
theorem ValidExtIDs_structure_witness :
    ValidExtIDs sampleEnv
      { sampleTx with Entry := { sampleTx.Entry with ExtIDs := [[1, 6], [0], [9, 9, 9]] } } =
        ValidExtIDs sampleEnv sampleTx :=
  (ValidExtIDs_structure sampleEnv sampleTx).2 [[1, 6], [0], [9, 9, 9]] (by decide)

/-- C7. With `n` the number of inputs and at least `2 * n` external IDs, `ValidRCDs`
returns, and it returns true exactly when every address that is a key of the inputs is
the hash of `ExtIDs[2 * i]` for some `i < n`; it returns false exactly when some input
address is the hash of none of them. -/
theorem ValidRCDs_coverage (env : Env) (t : Transaction)
    (he : 2 * t.Inputs.length ≤ t.Entry.ExtIDs.length) :
    (ValidRCDs env t = .ok true ↔
      ∀ k ∈ keys t.Inputs, ∃ i < t.Inputs.length, ∃ rcd,
        t.Entry.ExtIDs[2 * i]? = some rcd ∧ k = env.sha256d rcd) ∧
    (ValidRCDs env t = .ok false ↔
      ∃ k ∈ keys t.Inputs, ∀ i < t.Inputs.length, ∀ rcd,
        t.Entry.ExtIDs[2 * i]? = some rcd → k ≠ env.sha256d rcd) := by
  obtain ⟨b, hb, hiff⟩ := ValidRCDs_of_length env t he
  rw [hb]
  constructor
  · rw [← hiff]
    simp
  · have hneg : b = false ↔ ¬ (b = true) := by cases b <;> simp
    rw [Except.ok.injEq, hneg, hiff]
    push_neg
    rfl

/-- C7, instantiated: the only input of `sampleTx` is the hash of its first RCD. -/
theorem ValidRCDs_coverage_witness : ValidRCDs sampleEnv sampleTx = .ok true :=
  (ValidRCDs_coverage sampleEnv sampleTx (by decide)).1.mpr (by
    intro k hk
    have hk' : k = 107 := by simpa [keys, sampleTx] using hk
    exact ⟨0, by decide, [1, 6], by decide, by rw [hk']; decide⟩)

/-- C8. Let the entry unmarshal to a transaction for which `ValidData` and
`ValidExtIDs` return nil and whose inputs contain the coinbase address. Then the first
external ID exists; `Valid` returns "invalid RCD" when its hash differs from the key,
and when the hash equals the key `Valid` returns nil if `ValidSignatures` is true and
"invalid signatures" if not, whatever `ValidRCDs` would return. -/
theorem coinbase_issuer (env : Env) (t t' : Transaction) (k : Bytes32)
    (hu : env.unmarshalEntry t = .ok t') (hd : ValidData env t' = .ok ())
    (he : ValidExtIDs env t' = .ok ()) (hc : env.coinbase ∈ keys t'.Inputs) :
    ∃ rcd, t'.Entry.ExtIDs[0]? = some rcd ∧
      (env.sha256d rcd ≠ k → Valid env t (some k) = .error .invalidRCD) ∧
      (env.sha256d rcd = k →
        Valid env t (some k) =
          if ValidSignatures env t' = true then .ok () else .error .invalidSignatures) := by
  have hcb : Coinbase env t' = true := (hasKey_iff _ _).mpr hc
  obtain ⟨rcd, h0, hr⟩ := RCDHash_of_valid env t' hd he
  refine ⟨rcd, h0, ?_, ?_⟩
  · intro hk
    rw [Valid_eq_validAuth env t t' _ hu hd he, validAuth_coinbase env t' k _ hcb hr,
      if_pos hk]
  · intro hk
    rw [Valid_eq_validAuth env t t' _ hu hd he, validAuth_coinbase env t' k _ hcb hr,
      if_neg (not_not.mpr hk)]
    rfl

/-- C8, instantiated: the first external ID of `sampleCoinbaseTx` hashes to `107`. With
the key `107` the transaction is valid although `ValidRCDs` is false for it, and with
the key `1` it is rejected. -/
theorem coinbase_issuer_witness :
    ValidRCDs sampleEnv sampleCoinbaseTx = .ok false ∧
      ∃ rcd, sampleCoinbaseTx.Entry.ExtIDs[0]? = some rcd ∧
        (sampleEnv.sha256d rcd ≠ 107 →
          Valid sampleEnv sampleCoinbaseTx (some 107) = .error .invalidRCD) ∧
        (sampleEnv.sha256d rcd = 107 →
          Valid sampleEnv sampleCoinbaseTx (some 107) =
            if ValidSignatures sampleEnv sampleCoinbaseTx = true then .ok ()
            else .error .invalidSignatures) :=
  ⟨by decide,
    coinbase_issuer sampleEnv sampleCoinbaseTx sampleCoinbaseTx 107 rfl (by decide)
      (by decide) (by decide)⟩

/-! ## The JSON methods of `AddressAmountMap` -/

theorem unmarshalLoop_ok_iff {Address : Type} (c : Codec Address)
    (aaS : List (addressAmount Address)) (aam : AddressAmountMap) :
    (∃ m, unmarshalLoop c aaS aam = .ok m) ↔
      (∀ aa ∈ aaS, aa.Amount ≠ 0) ∧ (commitments c aaS).Nodup ∧
        ∀ h ∈ commitments c aaS, h ∉ keys aam := by
  induction aaS generalizing aam with
  | nil => simp [unmarshalLoop, commitments]
  | cons aa rest ih =>
    unfold unmarshalLoop
    by_cases hz : aa.Amount = 0
    · simp [hz]
    rw [if_neg hz]
    cases hk : hasKey aam (c.RCDHash aa.Address) with
    | true =>
      have hmem := (hasKey_iff _ _).mp hk
      simp only [if_true, reduceCtorEq, exists_false, false_iff, not_and]
      intro _ _ hall
      exact hall _ (by simp [commitments]) hmem
    | false =>
      have hmem := (hasKey_eq_false_iff _ _).mp hk
      simp only [Bool.false_eq_true, if_false]
      rw [ih]
      simp only [commitments, List.map_cons, List.nodup_cons, List.mem_cons,
        forall_eq_or_imp, mem_keys_store] at *
      constructor
      · rintro ⟨h1, h2, h3⟩
        refine ⟨⟨hz, h1⟩, ⟨?_, h2⟩, hmem, ?_⟩
        · intro hin
          exact (h3 _ hin) (Or.inl rfl)
        · intro h hh hin
          exact (h3 h hh) (Or.inr hin)
      · rintro ⟨⟨-, h1⟩, ⟨h2, h2'⟩, -, h3⟩
        refine ⟨h1, h2', ?_⟩
        rintro h hh (heq | hin)
        · exact h2 (heq ▸ hh)
        · exact h3 h hh hin

theorem unmarshalRecords_error_iff {Address : Type} (c : Codec Address)
    (aaS : List (addressAmount Address)) :
    (∃ e, unmarshalRecords c aaS = .error e) ↔
      (∃ aa ∈ aaS, aa.Amount = 0) ∨ ¬ (commitments c aaS).Nodup := by
  have hok := unmarshalLoop_ok_iff c aaS []
  unfold unmarshalRecords
  cases hr : unmarshalLoop c aaS [] with
  | error e =>
    rw [hr] at hok
    simp only [reduceCtorEq, exists_false, false_iff, keys, List.map_nil,
      List.not_mem_nil, not_false_eq_true, implies_true, and_true, not_and] at hok
    simp only [Except.error.injEq, exists_eq', true_iff]
    by_cases hall : ∀ aa ∈ aaS, aa.Amount ≠ 0
    · exact Or.inr (hok hall)
    · push_neg at hall
      exact Or.inl hall
  | ok m =>
    rw [hr] at hok
    have hok' := hok.mp ⟨m, rfl⟩
    simp only [reduceCtorEq, exists_false, false_iff, not_or, not_exists, not_and,
      not_not]
    exact ⟨fun aa haa => hok'.1 aa haa, hok'.2.1⟩

/-- C9. When `json.Unmarshal` yields the records `aaS`, `UnmarshalJSON` returns an
error exactly when some record has amount `0` or two records have the same address
commitment. A single record with amount `0` gives the zero amount error, and two
records for one address with amounts `1` and `2` give the duplicate address error. -/
theorem UnmarshalJSON_rejects {Address : Type} (c : Codec Address) (a : AddressAmountMap)
    (data : Bytes) (aaS : List (addressAmount Address))
    (hj : c.jsonUnmarshal data = .ok aaS) :
    ((∃ e, (UnmarshalJSON c a data).1 = .error e) ↔
      (∃ aa ∈ aaS, aa.Amount = 0) ∨ ¬ (commitments c aaS).Nodup) ∧
    (∀ A, aaS = [⟨A, 0⟩] → (UnmarshalJSON c a data).1 = .error .zeroAmount) ∧
    (∀ A, aaS = [⟨A, 1⟩, ⟨A, 2⟩] →
      (UnmarshalJSON c a data).1 = .error .duplicateAddress) := by
  have hU : (UnmarshalJSON c a data).1 =
      match unmarshalRecords c aaS with
      | .error e => .error e
      | .ok _ => .ok () := by
    unfold UnmarshalJSON
    rw [hj]
    dsimp only
    cases unmarshalRecords c aaS <;> rfl
  refine ⟨?_, ?_, ?_⟩
  · rw [← unmarshalRecords_error_iff, hU]
    cases unmarshalRecords c aaS <;> simp
  · intro A hA
    rw [hU, hA]
    simp [unmarshalRecords, unmarshalLoop]
  · intro A hA
    rw [hU, hA]
    simp [unmarshalRecords, unmarshalLoop, hasKey, store]

/-- C9, instantiated: the records `[(5, 1), (6, 2)]` of `sampleCodec` have positive
amounts and distinct addresses, so `UnmarshalJSON` does not return an error. -/
theorem UnmarshalJSON_rejects_witness :
    ¬ ∃ e, (UnmarshalJSON sampleCodec [] []).1 = .error e :=
  fun h => absurd
    ((UnmarshalJSON_rejects sampleCodec [] [] [⟨5, 1⟩, ⟨6, 2⟩] rfl).1.mp h) (by decide)

theorem nonZeroRecords_length_le {Address : Type} (c : Codec Address)
    (a : AddressAmountMap) : (nonZeroRecords c a).length ≤ a.length := by
  simp only [nonZeroRecords, List.length_map]
  exact List.length_filter_le _ _

theorem marshalLoop_eq {Address : Type} (c : Codec Address) (rest : AddressAmountMap)
    (pre : List (addressAmount Address)) (z : addressAmount Address) (k : Nat)
    (hk : rest.length ≤ k) :
    marshalLoop c rest (pre ++ List.replicate k z) pre.length =
      pre ++ nonZeroRecords c rest ++
        List.replicate (k - (nonZeroRecords c rest).length) z := by
  induction rest generalizing pre k with
  | nil => simp [marshalLoop, nonZeroRecords]
  | cons p rest ih =>
    obtain ⟨rcdHash, amount⟩ := p
    simp only [List.length_cons] at hk
    unfold marshalLoop
    by_cases hz : amount = 0
    · rw [if_pos hz, ih pre k (by omega)]
      simp [nonZeroRecords, hz]
    · rw [if_neg hz]
      obtain ⟨k', rfl⟩ : ∃ k', k = k' + 1 := ⟨k - 1, by omega⟩
      have hset : (pre ++ List.replicate (k' + 1) z).set pre.length
          ⟨c.NewAddress rcdHash, amount⟩ =
          (pre ++ [⟨c.NewAddress rcdHash, amount⟩]) ++ List.replicate k' z := by
        rw [List.set_append_right _ _ (Nat.le_refl _)]
        simp [List.replicate_succ]
      have hlen : pre.length + 1 =
          (pre ++ [(⟨c.NewAddress rcdHash, amount⟩ : addressAmount Address)]).length := by
        simp
      rw [hset, hlen, ih _ k' (by omega)]
      simp [nonZeroRecords, hz]

/-- The slice that `MarshalJSON` encodes: the records of the non-zero entries, followed
by one zero record for each entry with amount `0`. -/
theorem marshalRecords_eq {Address : Type} (c : Codec Address) (a : AddressAmountMap) :
    marshalRecords c a = nonZeroRecords c a ++
      List.replicate (a.length - (nonZeroRecords c a).length) ⟨c.zeroAddress, 0⟩ := by
  have h := marshalLoop_eq c a [] ⟨c.zeroAddress, 0⟩ a.length (Nat.le_refl _)
  simpa [marshalRecords] using h

theorem nonZeroRecords_length_lt {Address : Type} (c : Codec Address)
    (a : AddressAmountMap) (hz : ∃ p ∈ a, p.2 = 0) :
    (nonZeroRecords c a).length < a.length := by
  obtain ⟨p, hp, hp0⟩ := hz
  simp only [nonZeroRecords, List.length_map]
  exact List.length_filter_lt_length_iff_exists.mpr ⟨p, hp, by simp [hp0]⟩

/-- C10, the defect. For every map with an entry of amount `0`, the slice that
`MarshalJSON` encodes has as many records as the map has entries and contains a record
with amount `0`: the zero record left at the end of the slice, one for each entry that
the loop skips. -/
theorem MarshalJSON_keeps_zero_record {Address : Type} (c : Codec Address)
    (a : AddressAmountMap) (hz : ∃ p ∈ a, p.2 = 0) :
    (marshalRecords c a).length = a.length ∧
      (⟨c.zeroAddress, 0⟩ : addressAmount Address) ∈ marshalRecords c a ∧
      ∃ aa ∈ marshalRecords c a, aa.Amount = 0 := by
  have hlt := nonZeroRecords_length_lt c a hz
  have hle := nonZeroRecords_length_le c a
  have hmem : (⟨c.zeroAddress, 0⟩ : addressAmount Address) ∈ marshalRecords c a := by
    rw [marshalRecords_eq, List.mem_append]
    right
    rw [List.mem_replicate]
    exact ⟨by omega, rfl⟩
  refine ⟨?_, hmem, ⟨c.zeroAddress, 0⟩, hmem, rfl⟩
  rw [marshalRecords_eq, List.length_append, List.length_replicate]
  omega

/-- C10, at the failing input: for the map with the entries `(7, 5)` and `(8, 0)` the
slice handed to `json.Marshal` is the record of address `7` followed by a zero record. -/
theorem MarshalJSON_keeps_zero_record_witness :
    marshalRecords sampleCodec [(7, 5), (8, 0)] = [⟨7, 5⟩, ⟨0, 0⟩] ∧
      ((marshalRecords sampleCodec [(7, 5), (8, 0)]).length = 2 ∧
        (⟨sampleCodec.zeroAddress, 0⟩ : addressAmount Nat) ∈
          marshalRecords sampleCodec [(7, 5), (8, 0)] ∧
        ∃ aa ∈ marshalRecords sampleCodec [(7, 5), (8, 0)], aa.Amount = 0) :=
  ⟨by decide, MarshalJSON_keeps_zero_record sampleCodec [(7, 5), (8, 0)] ⟨(8, 0), by decide⟩⟩

/-! ## Decoding and encoding, continued -/

theorem store_of_not_hasKey (m : AddressAmountMap) (k : Bytes32) (v : Nat)
    (h : hasKey m k = false) : store m k v = m ++ [(k, v)] := by
  simp [store, h]

theorem unmarshalLoop_ok_eq {Address : Type} (c : Codec Address)
    (aaS : List (addressAmount Address)) (aam m : AddressAmountMap)
    (h : unmarshalLoop c aaS aam = .ok m) : m = aam ++ aaS.map (entryOf c) := by
  induction aaS generalizing aam with
  | nil =>
    simp only [unmarshalLoop, Except.ok.injEq] at h
    simp [h]
  | cons aa rest ih =>
    unfold unmarshalLoop at h
    by_cases hz : aa.Amount = 0
    · rw [if_pos hz] at h; cases h
    rw [if_neg hz] at h
    cases hk : hasKey aam (c.RCDHash aa.Address) with
    | true => rw [hk, if_pos rfl] at h; cases h
    | false =>
      rw [hk] at h
      simp only [Bool.false_eq_true, if_false] at h
      rw [store_of_not_hasKey _ _ _ hk] at h
      rw [ih _ h]
      simp [entryOf]

theorem keys_map_entryOf {Address : Type} (c : Codec Address)
    (aaS : List (addressAmount Address)) :
    keys (aaS.map (entryOf c)) = commitments c aaS := by
  simp [keys, commitments, entryOf, Function.comp]

/-- The records stage of `UnmarshalJSON` succeeds exactly when every amount is non-zero
and the commitments are pairwise distinct, and then the map holds the entries of the
records in their order. -/
theorem unmarshalRecords_eq_ok_iff {Address : Type} (c : Codec Address)
    (aaS : List (addressAmount Address)) (m : AddressAmountMap) :
    unmarshalRecords c aaS = .ok m ↔
      (∀ aa ∈ aaS, aa.Amount ≠ 0) ∧ (commitments c aaS).Nodup ∧
        m = aaS.map (entryOf c) := by
  have hiff := unmarshalLoop_ok_iff c aaS []
  unfold unmarshalRecords
  constructor
  · intro h
    have heq := unmarshalLoop_ok_eq c aaS [] m h
    have hc := hiff.mp ⟨m, h⟩
    exact ⟨hc.1, hc.2.1, by simpa using heq⟩
  · rintro ⟨h1, h2, h3⟩
    obtain ⟨m', hm'⟩ := hiff.mpr ⟨h1, h2, by simp [keys]⟩
    have heq := unmarshalLoop_ok_eq c aaS [] m' hm'
    rw [hm', h3]
    simpa using heq

theorem UnmarshalJSON_of_records {Address : Type} (c : Codec Address) (a : AddressAmountMap)
    (data : Bytes) (aaS : List (addressAmount Address))
    (hj : c.jsonUnmarshal data = .ok aaS) :
    UnmarshalJSON c a data =
      match unmarshalRecords c aaS with
      | .error e => (.error e, a)
      | .ok aam => (.ok (), aam) := by
  unfold UnmarshalJSON
  rw [hj]

theorem nonZeroRecords_of_pos {Address : Type} (c : Codec Address) (m : AddressAmountMap)
    (hpos : ∀ p ∈ m, 0 < p.2) :
    nonZeroRecords c m = m.map (fun p => ⟨c.NewAddress p.1, p.2⟩) := by
  unfold nonZeroRecords
  rw [List.filter_eq_self.mpr]
  intro p hp
  have := hpos p hp
  simp
  omega

theorem decodePairs_encodePairs (aaS : List (addressAmount Nat)) :
    decodePairs (encodePairs aaS) = .ok aaS := by
  induction aaS with
  | nil => rfl
  | cons aa rest ih => simp [encodePairs, decodePairs, ih]

/-- C11. Let `m` be a map, with pairwise distinct keys, whose amounts are all positive;
let `NewAddress h` have the commitment `h`, and let every slice of records be encoded by
`json.Marshal` to bytes that `json.Unmarshal` decodes back to it. Then `MarshalJSON`
encodes exactly `len(m)` records, the record of each entry in turn, and `UnmarshalJSON`
on its output returns nil and sets the receiver to `m`. -/
theorem round_trip {Address : Type} (c : Codec Address) (a m : AddressAmountMap)
    (hkeys : (keys m).Nodup) (hpos : ∀ p ∈ m, 0 < p.2)
    (hhash : ∀ h, c.RCDHash (c.NewAddress h) = h)
    (hjson : ∀ aaS, ∃ data, c.jsonMarshal aaS = .ok data ∧ c.jsonUnmarshal data = .ok aaS) :
    (marshalRecords c m).length = m.length ∧
    marshalRecords c m = m.map (fun p => ⟨c.NewAddress p.1, p.2⟩) ∧
    ∃ data, MarshalJSON c m = .ok data ∧ UnmarshalJSON c a data = (.ok (), m) := by
  have hrec : marshalRecords c m = m.map (fun p => ⟨c.NewAddress p.1, p.2⟩) := by
    rw [marshalRecords_eq, nonZeroRecords_of_pos c m hpos]
    simp
  have hentries : (m.map (fun p => (⟨c.NewAddress p.1, p.2⟩ : addressAmount Address))).map
      (entryOf c) = m := by
    rw [List.map_map]
    conv_rhs => rw [← List.map_id m]
    apply List.map_congr_left
    intro p _
    simp [entryOf, hhash]
  refine ⟨by rw [hrec, List.length_map], hrec, ?_⟩
  obtain ⟨data, hmar, hun⟩ := hjson (marshalRecords c m)
  refine ⟨data, hmar, ?_⟩
  have hok : unmarshalRecords c (marshalRecords c m) = .ok m := by
    rw [unmarshalRecords_eq_ok_iff, hrec]
    refine ⟨?_, ?_, hentries.symm⟩
    · intro aa haa
      obtain ⟨p, hp, rfl⟩ := List.mem_map.mp haa
      exact Nat.pos_iff_ne_zero.mp (hpos p hp)
    · rw [← keys_map_entryOf, hentries]
      exact hkeys
  rw [UnmarshalJSON_of_records c a data _ hun, hok]

/-- C11, instantiated: the map with the entries `(7, 5)` and `(8, 3)` is encoded by
`pairCodec` as two records and decoded back into a receiver that held something else. -/
theorem round_trip_witness :
    (marshalRecords pairCodec [(7, 5), (8, 3)]).length = 2 ∧
    marshalRecords pairCodec [(7, 5), (8, 3)] = [⟨7, 5⟩, ⟨8, 3⟩] ∧
    ∃ data, MarshalJSON pairCodec [(7, 5), (8, 3)] = .ok data ∧
      UnmarshalJSON pairCodec [(1, 1)] data = (.ok (), [(7, 5), (8, 3)]) :=
  round_trip pairCodec [(1, 1)] [(7, 5), (8, 3)] (by decide) (by decide) (fun _ => rfl)
    (fun aaS => ⟨encodePairs aaS, rfl, decodePairs_encodePairs aaS⟩)

/-- C16. When `json.Unmarshal` yields the records `aaS` and `UnmarshalJSON` returns nil,
the receiver holds the entries of the records and nothing else: it has as many entries
as there are records, its keys are pairwise distinct, every record's commitment is a key
with that record's amount, every key is the commitment of a record, and every amount is
positive. -/
theorem decode_postcondition {Address : Type} (c : Codec Address) (a : AddressAmountMap)
    (data : Bytes) (aaS : List (addressAmount Address))
    (hj : c.jsonUnmarshal data = .ok aaS) (hok : (UnmarshalJSON c a data).1 = .ok ()) :
    (UnmarshalJSON c a data).2 = aaS.map (entryOf c) ∧
    (UnmarshalJSON c a data).2.length = aaS.length ∧
    (keys (UnmarshalJSON c a data).2).Nodup ∧
    (∀ aa ∈ aaS, (c.RCDHash aa.Address, aa.Amount) ∈ (UnmarshalJSON c a data).2) ∧
    (∀ k ∈ keys (UnmarshalJSON c a data).2, ∃ aa ∈ aaS, c.RCDHash aa.Address = k) ∧
    (∀ p ∈ (UnmarshalJSON c a data).2, 0 < p.2) := by
  rw [UnmarshalJSON_of_records c a data aaS hj] at hok ⊢
  cases hr : unmarshalRecords c aaS with
  | error e => rw [hr] at hok; cases hok
  | ok m =>
    obtain ⟨hnz, hnd, hm⟩ := (unmarshalRecords_eq_ok_iff c aaS m).mp hr
    dsimp only
    subst hm
    refine ⟨rfl, by simp, ?_, ?_, ?_, ?_⟩
    · rw [keys_map_entryOf]; exact hnd
    · intro aa haa
      exact List.mem_map.mpr ⟨aa, haa, rfl⟩
    · intro k hk
      rw [keys_map_entryOf] at hk
      obtain ⟨aa, haa, rfl⟩ := List.mem_map.mp hk
      exact ⟨aa, haa, rfl⟩
    · intro p hp
      obtain ⟨aa, haa, rfl⟩ := List.mem_map.mp hp
      exact Nat.pos_iff_ne_zero.mpr (hnz aa haa)

/-- C16, instantiated: decoding the records `(5, 1)` and `(6, 2)` of `sampleCodec` gives
the map with exactly these two entries. -/
theorem decode_postcondition_witness :
    (UnmarshalJSON sampleCodec [] []).2 = [(5, 1), (6, 2)] :=
  (decode_postcondition sampleCodec [] [] [⟨5, 1⟩, ⟨6, 2⟩] rfl (by decide)).1

theorem unmarshalLoop_error_kind {Address : Type} (c : Codec Address)
    (aaS : List (addressAmount Address)) (aam : AddressAmountMap) (e : Err)
    (h : unmarshalLoop c aaS aam = .error e) : e = .zeroAmount ∨ e = .duplicateAddress := by
  induction aaS generalizing aam with
  | nil => simp [unmarshalLoop] at h
  | cons aa rest ih =>
    unfold unmarshalLoop at h
    by_cases hz : aa.Amount = 0
    · rw [if_pos hz] at h
      left
      cases h
      rfl
    rw [if_neg hz] at h
    cases hk : hasKey aam (c.RCDHash aa.Address) with
    | true =>
      rw [hk, if_pos rfl] at h
      right
      cases h
      rfl
    | false =>
      rw [hk] at h
      simp only [Bool.false_eq_true, if_false] at h
      exact ih _ h

theorem UnmarshalJSON_of_json_error {Address : Type} (c : Codec Address)
    (a : AddressAmountMap) (data : Bytes) (e : Err)
    (hj : c.jsonUnmarshal data = .error e) : UnmarshalJSON c a data = (.error e, a) := by
  unfold UnmarshalJSON
  rw [hj]

/-- C19. When `UnmarshalJSON` returns an error, be it the error of `json.Unmarshal`, the
zero amount error or the duplicate address error, the receiver is what it was before the
call. The receiver changes only when nil is returned, and then it is the map built from
the records. -/
theorem decode_atomic {Address : Type} (c : Codec Address) (a : AddressAmountMap)
    (data : Bytes) :
    (∀ e, (UnmarshalJSON c a data).1 = .error e → (UnmarshalJSON c a data).2 = a) ∧
    (∀ e, c.jsonUnmarshal data = .error e → UnmarshalJSON c a data = (.error e, a)) ∧
    (∀ aaS e, c.jsonUnmarshal data = .ok aaS → unmarshalRecords c aaS = .error e →
      (e = .zeroAmount ∨ e = .duplicateAddress) ∧ UnmarshalJSON c a data = (.error e, a)) ∧
    ((UnmarshalJSON c a data).2 ≠ a → (UnmarshalJSON c a data).1 = .ok ()) ∧
    ((UnmarshalJSON c a data).1 = .ok () →
      ∃ aaS, c.jsonUnmarshal data = .ok aaS ∧
        (UnmarshalJSON c a data).2 = aaS.map (entryOf c)) := by
  have herr : ∀ e, (UnmarshalJSON c a data).1 = .error e →
      (UnmarshalJSON c a data).2 = a := by
    intro e he
    cases hj : c.jsonUnmarshal data with
    | error e' => rw [UnmarshalJSON_of_json_error c a data e' hj]
    | ok aaS =>
      rw [UnmarshalJSON_of_records c a data aaS hj] at he ⊢
      cases hr : unmarshalRecords c aaS with
      | error e' => rfl
      | ok m => rw [hr] at he; cases he
  refine ⟨herr, fun e hj => UnmarshalJSON_of_json_error c a data e hj, ?_, ?_, ?_⟩
  · intro aaS e hj hr
    refine ⟨unmarshalLoop_error_kind c aaS [] e hr, ?_⟩
    rw [UnmarshalJSON_of_records c a data aaS hj, hr]
  · intro hne
    cases hres : (UnmarshalJSON c a data).1 with
    | error e => exact absurd (herr e hres) hne
    | ok u => rfl
  · intro hok
    cases hj : c.jsonUnmarshal data with
    | error e => rw [UnmarshalJSON_of_json_error c a data e hj] at hok; cases hok
    | ok aaS =>
      refine ⟨aaS, rfl, ?_⟩
      rw [UnmarshalJSON_of_records c a data aaS hj] at hok ⊢
      cases hr : unmarshalRecords c aaS with
      | error e => rw [hr] at hok; cases hok
      | ok m => exact ((unmarshalRecords_eq_ok_iff c aaS m).mp hr).2.2


/-- C19, instantiated: the records `(5, 1)` and `(5, 2)` name one address twice, and the
receiver `[(9, 9)]` is still there after the failed call. -/
theorem decode_atomic_witness :
    (UnmarshalJSON pairCodec [(9, 9)] [5, 1, 5, 2]).2 = [(9, 9)] :=
  (decode_atomic pairCodec [(9, 9)] [5, 1, 5, 2]).1 .duplicateAddress (by decide)

/-! ## The order of the RCDs and the order of the records -/

theorem pairsToExtIDs_length (ps : List (Bytes × Bytes)) :
    (pairsToExtIDs ps).length = 2 * ps.length := by
  induction ps with
  | nil => rfl
  | cons p rest ih => simp only [pairsToExtIDs, List.length_cons, ih]; omega

theorem pairsToExtIDs_even (ps : List (Bytes × Bytes)) (rest : List Bytes) (i : Nat)
    (hi : i < ps.length) :
    (pairsToExtIDs ps ++ rest)[2 * i]? = (ps[i]?).map Prod.fst := by
  induction ps generalizing i with
  | nil => simp at hi
  | cons p tl ih =>
    cases i with
    | zero => simp [pairsToExtIDs]
    | succ j =>
      have hj : j < tl.length := by simpa using hi
      have h2 : 2 * (j + 1) = 2 * j + 1 + 1 := by omega
      rw [h2]
      simp only [pairsToExtIDs, List.cons_append, List.getElem?_cons_succ]
      exact ih j hj

theorem exists_pairs (n : Nat) (extIDs : List Bytes) (h : 2 * n ≤ extIDs.length) :
    ∃ ps rest, ps.length = n ∧ extIDs = pairsToExtIDs ps ++ rest := by
  induction n generalizing extIDs with
  | zero => exact ⟨[], extIDs, rfl, rfl⟩
  | succ n ih =>
    match extIDs, h with
    | a :: b :: tl, h =>
      obtain ⟨ps, rest, hps, htl⟩ := ih tl (by simp only [List.length_cons] at h; omega)
      exact ⟨(a, b) :: ps, rest, by simp [hps], by simp [pairsToExtIDs, htl]⟩
    | [_], h => exact absurd h (by simp only [List.length_cons, List.length_nil]; omega)
    | [], h => exact absurd h (by simp only [List.length_nil]; omega)

/-- With the external IDs laid out as `n` pairs and a remainder, an address is the hash
of one of the RCD positions exactly when it is the hash of the RCD of one of the pairs. -/
theorem covered_iff_mem_pairs (env : Env) (n : Nat) (ps : List (Bytes × Bytes))
    (rest : List Bytes) (hlen : ps.length = n) (k : Bytes32) :
    (∃ i < n, ∃ rcd, (pairsToExtIDs ps ++ rest)[2 * i]? = some rcd ∧ k = env.sha256d rcd) ↔
      ∃ p ∈ ps, k = env.sha256d p.1 := by
  subst hlen
  constructor
  · rintro ⟨i, hi, rcd, hr, hk⟩
    rw [pairsToExtIDs_even ps rest i hi, List.getElem?_eq_getElem hi] at hr
    simp only [Option.map_some', Option.some.injEq] at hr
    exact ⟨ps[i], List.getElem_mem hi, by rw [hr]; exact hk⟩
  · rintro ⟨p, hp, hk⟩
    obtain ⟨i, hi, rfl⟩ := List.getElem_of_mem hp
    refine ⟨i, hi, ps[i].1, ?_, hk⟩
    rw [pairsToExtIDs_even ps rest i hi, List.getElem?_eq_getElem hi]
    rfl

theorem ValidRCDs_congr (env : Env) (t₁ t₂ : Transaction)
    (h₁ : 2 * t₁.Inputs.length ≤ t₁.Entry.ExtIDs.length)
    (h₂ : 2 * t₂.Inputs.length ≤ t₂.Entry.ExtIDs.length)
    (hcov : (∀ k ∈ keys t₁.Inputs, ∃ i < t₁.Inputs.length, ∃ rcd,
        t₁.Entry.ExtIDs[2 * i]? = some rcd ∧ k = env.sha256d rcd) ↔
      (∀ k ∈ keys t₂.Inputs, ∃ i < t₂.Inputs.length, ∃ rcd,
        t₂.Entry.ExtIDs[2 * i]? = some rcd ∧ k = env.sha256d rcd)) :
    ValidRCDs env t₁ = ValidRCDs env t₂ := by
  obtain ⟨b₁, hb₁, hiff₁⟩ := ValidRCDs_of_length env t₁ h₁
  obtain ⟨b₂, hb₂, hiff₂⟩ := ValidRCDs_of_length env t₂ h₂
  rw [hb₁, hb₂]
  congr 1
  rw [Bool.eq_iff_iff, hiff₁, hiff₂]
  exact hcov

theorem ValidRCDs_pairs_perm (env : Env) (t : Transaction) (ps ps' : List (Bytes × Bytes))
    (rest : List Bytes) (hlen : ps.length = t.Inputs.length) (hperm : ps.Perm ps') :
    ValidRCDs env (withExtIDs t (pairsToExtIDs ps' ++ rest)) =
      ValidRCDs env (withExtIDs t (pairsToExtIDs ps ++ rest)) := by
  have hlen' : ps'.length = t.Inputs.length := by rw [← hperm.length_eq, hlen]
  apply ValidRCDs_congr
  · simp only [withExtIDs, List.length_append, pairsToExtIDs_length]; omega
  · simp only [withExtIDs, List.length_append, pairsToExtIDs_length]; omega
  · simp only [withExtIDs]
    apply forall_congr'
    intro k
    apply imp_congr Iff.rfl
    rw [covered_iff_mem_pairs env _ ps' rest hlen' k, covered_iff_mem_pairs env _ ps rest hlen k]
    constructor
    · rintro ⟨p, hp, hk⟩
      exact ⟨p, hperm.mem_iff.mpr hp, hk⟩
    · rintro ⟨p, hp, hk⟩
      exact ⟨p, hperm.mem_iff.mp hp, hk⟩

/-- C12. Let the transaction have `n` inputs and at least `2 * n` external IDs. Then the
external IDs are `n` pairs of an RCD and a signature, pair `i` at the positions `2 * i`
and `2 * i + 1`, followed by a remainder, and whatever permutation of the `n` pairs is
put in their place, `ValidRCDs` returns what it returns for the transaction itself. -/
theorem rcd_order_freedom (env : Env) (t : Transaction)
    (he : 2 * t.Inputs.length ≤ t.Entry.ExtIDs.length) :
    ∃ ps rest, ps.length = t.Inputs.length ∧ t.Entry.ExtIDs = pairsToExtIDs ps ++ rest ∧
      ∀ ps' : List (Bytes × Bytes), ps.Perm ps' →
        ValidRCDs env (withExtIDs t (pairsToExtIDs ps' ++ rest)) = ValidRCDs env t := by
  obtain ⟨ps, rest, hlen, hext⟩ := exists_pairs t.Inputs.length t.Entry.ExtIDs he
  refine ⟨ps, rest, hlen, hext, fun ps' hperm => ?_⟩
  rw [ValidRCDs_pairs_perm env t ps ps' rest hlen hperm, ← hext]
  rfl


/-- C12, instantiated: a transaction with the inputs `107` and `109`, whose RCDs `[1, 6]`
and `[1, 8]` are supplied in the opposite order. -/
theorem rcd_order_freedom_witness :
    ∃ ps rest, ps.length = 2 ∧
      [[1, 6], [0], [1, 8], [0]] = pairsToExtIDs ps ++ rest ∧
      ∀ ps' : List (Bytes × Bytes), ps.Perm ps' →
        ValidRCDs sampleEnv (withExtIDs twoInputTx (pairsToExtIDs ps' ++ rest)) =
          ValidRCDs sampleEnv twoInputTx :=
  rcd_order_freedom sampleEnv twoInputTx (by decide)

theorem sum_perm (a b : AddressAmountMap) (h : a.Perm b) : sum a = sum b := by
  rw [sum_eq_exactSum_mod, sum_eq_exactSum_mod]
  unfold exactSum
  rw [(h.map Prod.snd).sum_eq]

theorem keys_perm (a b : AddressAmountMap) (h : a.Perm b) : (keys a).Perm (keys b) :=
  h.map Prod.fst

theorem hasKey_perm (a b : AddressAmountMap) (h : a.Perm b) (k : Bytes32) :
    hasKey a k = hasKey b k := by
  rw [Bool.eq_iff_iff, hasKey_iff, hasKey_iff]
  exact (keys_perm a b h).mem_iff

theorem emptyIntersection_perm (a b a' b' : AddressAmountMap) (ha : a.Perm a')
    (hb : b.Perm b') : emptyIntersection a b = emptyIntersection a' b' := by
  rw [Bool.eq_iff_iff, emptyIntersection_iff, emptyIntersection_iff]
  apply forall_congr'
  intro k
  rw [(keys_perm a a' ha).mem_iff, (keys_perm b b' hb).mem_iff]

theorem ValidData_perm (env : Env) (t : Transaction) (ins outs : AddressAmountMap)
    (hi : t.Inputs.Perm ins) (ho : t.Outputs.Perm outs) :
    ValidData env { t with Inputs := ins, Outputs := outs } = ValidData env t := by
  unfold ValidData Coinbase
  simp only [← hi.length_eq, ← ho.length_eq, ← sum_perm _ _ hi, ← sum_perm _ _ ho,
    ← hasKey_perm _ _ hi, ← emptyIntersection_perm _ _ _ _ hi ho]

theorem ValidExtIDs_perm (env : Env) (t : Transaction) (ins outs : AddressAmountMap)
    (hi : t.Inputs.Perm ins) :
    ValidExtIDs env { t with Inputs := ins, Outputs := outs } = ValidExtIDs env t := by
  unfold ValidExtIDs
  simp only [← hi.length_eq]

theorem ValidRCDs_perm (env : Env) (t : Transaction) (ins outs : AddressAmountMap)
    (hi : t.Inputs.Perm ins) :
    ValidRCDs env { t with Inputs := ins, Outputs := outs } = ValidRCDs env t := by
  unfold ValidRCDs
  simp only [← hi.length_eq]
  cases collectRCDHashes env t.Entry.ExtIDs (List.range t.Inputs.length) [] with
  | error e => rfl
  | ok m =>
    dsimp only
    congr 1
    rw [Bool.eq_iff_iff, List.all_eq_true, List.all_eq_true]
    constructor
    · intro h p hp
      exact h p (hi.mem_iff.mp hp)
    · intro h p hp
      exact h p (hi.mem_iff.mpr hp)

/-- C13. Let `json.Unmarshal` yield a list of records for one input and a permutation of
that list for another. Then `UnmarshalJSON` returns nil on the one exactly when it does
on the other, and the two maps then have the same entries: each is a rearrangement of
the other, with pairwise distinct keys. `ValidData`, `ValidExtIDs` and `ValidRCDs`
return the same for a transaction whatever rearrangement of its inputs and of its
outputs they are given. -/
theorem decode_order_irrelevant {Address : Type} (c : Codec Address)
    (a a' : AddressAmountMap) (data data' : Bytes) (aaS aaS' : List (addressAmount Address))
    (hj : c.jsonUnmarshal data = .ok aaS) (hj' : c.jsonUnmarshal data' = .ok aaS')
    (hperm : aaS.Perm aaS') :
    ((UnmarshalJSON c a data).1 = .ok () ↔ (UnmarshalJSON c a' data').1 = .ok ()) ∧
    ((UnmarshalJSON c a data).1 = .ok () →
      (UnmarshalJSON c a data).2.Perm (UnmarshalJSON c a' data').2 ∧
      (keys (UnmarshalJSON c a data).2).Nodup ∧
      ∀ p, p ∈ (UnmarshalJSON c a data).2 ↔ p ∈ (UnmarshalJSON c a' data').2) ∧
    (∀ (env : Env) (t : Transaction) (ins outs : AddressAmountMap),
      t.Inputs.Perm ins → t.Outputs.Perm outs →
      ValidData env { t with Inputs := ins, Outputs := outs } = ValidData env t ∧
      ValidExtIDs env { t with Inputs := ins, Outputs := outs } = ValidExtIDs env t ∧
      ValidRCDs env { t with Inputs := ins, Outputs := outs } = ValidRCDs env t) := by
  have hcond : ((∀ aa ∈ aaS, aa.Amount ≠ 0) ∧ (commitments c aaS).Nodup) ↔
      ((∀ aa ∈ aaS', aa.Amount ≠ 0) ∧ (commitments c aaS').Nodup) := by
    have hc : (commitments c aaS).Perm (commitments c aaS') := hperm.map _
    rw [hc.nodup_iff]
    constructor
    · rintro ⟨h1, h2⟩
      exact ⟨fun aa haa => h1 aa (hperm.mem_iff.mpr haa), h2⟩
    · rintro ⟨h1, h2⟩
      exact ⟨fun aa haa => h1 aa (hperm.mem_iff.mp haa), h2⟩
  have hres : ∀ (r : AddressAmountMap) (d : Bytes) (l : List (addressAmount Address)),
      c.jsonUnmarshal d = .ok l →
      ((UnmarshalJSON c r d).1 = .ok () ↔
        (∀ aa ∈ l, aa.Amount ≠ 0) ∧ (commitments c l).Nodup) ∧
      ((UnmarshalJSON c r d).1 = .ok () → (UnmarshalJSON c r d).2 = l.map (entryOf c)) := by
    intro r d l hd
    rw [UnmarshalJSON_of_records c r d l hd]
    cases hr : unmarshalRecords c l with
    | error e =>
      refine ⟨⟨fun h => (by cases h), fun h => ?_⟩, fun h => (by cases h)⟩
      obtain ⟨m, hm⟩ : ∃ m, unmarshalRecords c l = .ok m :=
        ⟨_, (unmarshalRecords_eq_ok_iff c l _).mpr ⟨h.1, h.2, rfl⟩⟩
      rw [hr] at hm
      cases hm
    | ok m =>
      obtain ⟨h1, h2, h3⟩ := (unmarshalRecords_eq_ok_iff c l m).mp hr
      exact ⟨⟨fun _ => ⟨h1, h2⟩, fun _ => rfl⟩, fun _ => h3⟩
  obtain ⟨hok, hmap⟩ := hres a data aaS hj
  obtain ⟨hok', hmap'⟩ := hres a' data' aaS' hj'
  refine ⟨by rw [hok, hok', hcond], ?_, ?_⟩
  · intro h
    have h' : (UnmarshalJSON c a' data').1 = .ok () := hok'.mpr (hcond.mp (hok.mp h))
    rw [hmap h, hmap' h']
    have hp : (aaS.map (entryOf c)).Perm (aaS'.map (entryOf c)) := hperm.map _
    refine ⟨hp, ?_, fun p => hp.mem_iff⟩
    rw [keys_map_entryOf]
    exact (hok.mp h).2
  · intro env t ins outs hi ho
    exact ⟨ValidData_perm env t ins outs hi ho, ValidExtIDs_perm env t ins outs hi,
      ValidRCDs_perm env t ins outs hi⟩

/-- C13, instantiated: the records `(5, 1)` and `(6, 2)` and the same records with the
second one first are both decoded, to maps that are rearrangements of each other. -/
theorem decode_order_irrelevant_witness :
    (UnmarshalJSON pairCodec [] [5, 1, 6, 2]).1 = .ok () ∧
      (UnmarshalJSON pairCodec [] [6, 2, 5, 1]).1 = .ok () ∧
      (UnmarshalJSON pairCodec [] [5, 1, 6, 2]).2.Perm
        (UnmarshalJSON pairCodec [] [6, 2, 5, 1]).2 :=
  have h := decode_order_irrelevant pairCodec [] [] [5, 1, 6, 2] [6, 2, 5, 1]
    [⟨5, 1⟩, ⟨6, 2⟩] [⟨6, 2⟩, ⟨5, 1⟩] rfl rfl (List.Perm.swap _ _ _)
  ⟨by decide, h.1.mp (by decide), (h.2.1 (by decide)).1⟩

/-! ## Coverage as a pairing -/

theorem length_filterMap_of_some {α β : Type} (f : α → Option β) (l : List α)
    (h : ∀ x ∈ l, ∃ y, f x = some y) : (l.filterMap f).length = l.length := by
  induction l with
  | nil => rfl
  | cons x rest ih =>
    obtain ⟨y, hy⟩ := h x (List.mem_cons_self _ _)
    rw [List.filterMap_cons_some hy, List.length_cons, List.length_cons,
      ih (fun z hz => h z (List.mem_cons_of_mem _ hz))]

theorem rcdHashes_length (env : Env) (t : Transaction)
    (he : 2 * t.Inputs.length ≤ t.Entry.ExtIDs.length) :
    (rcdHashes env t).length = t.Inputs.length := by
  unfold rcdHashes
  rw [length_filterMap_of_some, List.length_range]
  intro i hi
  have hi' : 2 * i < t.Entry.ExtIDs.length := by
    rw [List.mem_range] at hi
    omega
  exact ⟨env.sha256d t.Entry.ExtIDs[2 * i], by simp [List.getElem?_eq_getElem hi']⟩

theorem mem_rcdHashes (env : Env) (t : Transaction) (h : Bytes32) :
    h ∈ rcdHashes env t ↔ ∃ i < t.Inputs.length, ∃ rcd,
      t.Entry.ExtIDs[2 * i]? = some rcd ∧ h = env.sha256d rcd := by
  unfold rcdHashes
  rw [List.mem_filterMap]
  constructor
  · rintro ⟨i, hi, hx⟩
    rw [Option.map_eq_some'] at hx
    obtain ⟨rcd, hr, rfl⟩ := hx
    exact ⟨i, List.mem_range.mp hi, rcd, hr, rfl⟩
  · rintro ⟨i, hi, rcd, hr, rfl⟩
    exact ⟨i, List.mem_range.mpr hi, by simp [hr]⟩

/-- C18. Let the inputs be a map, its keys pairwise distinct, with `n` entries, let there
be at least `2 * n` external IDs and let `ValidRCDs` return true. Then the `n` hashes of
the external IDs at the positions `2 * i`, `i < n`, are pairwise distinct, each of them
is a key of the inputs, and together they are exactly the keys of the inputs. -/
theorem coverage_one_to_one (env : Env) (t : Transaction) (hkeys : (keys t.Inputs).Nodup)
    (he : 2 * t.Inputs.length ≤ t.Entry.ExtIDs.length)
    (hv : ValidRCDs env t = .ok true) :
    (rcdHashes env t).length = t.Inputs.length ∧ (rcdHashes env t).Nodup ∧
      (∀ h ∈ rcdHashes env t, h ∈ keys t.Inputs) ∧
      (keys t.Inputs).Perm (rcdHashes env t) := by
  obtain ⟨b, hb, hiff⟩ := ValidRCDs_of_length env t he
  rw [hv] at hb
  have hcov := hiff.mp (by cases hb; rfl)
  have hsub : keys t.Inputs ⊆ rcdHashes env t := fun k hk =>
    (mem_rcdHashes env t k).mpr (hcov k hk)
  have hlen := rcdHashes_length env t he
  have hperm : (keys t.Inputs).Perm (rcdHashes env t) :=
    (List.subperm_of_subset hkeys hsub).perm_of_length_le (by simp [hlen, keys])
  exact ⟨hlen, hperm.nodup_iff.mp hkeys, fun h hh => hperm.mem_iff.mpr hh, hperm⟩

/-- C18, instantiated: the RCDs of `twoInputTx` hash to `107` and `109`, its two inputs. -/
theorem coverage_one_to_one_witness :
    (rcdHashes sampleEnv twoInputTx).length = 2 ∧ (rcdHashes sampleEnv twoInputTx).Nodup ∧
      (∀ h ∈ rcdHashes sampleEnv twoInputTx, h ∈ keys twoInputTx.Inputs) ∧
      (keys twoInputTx.Inputs).Perm (rcdHashes sampleEnv twoInputTx) :=
  coverage_one_to_one sampleEnv twoInputTx (by decide) (by decide) (by decide)


/-! ## The order of the rules of `ValidData` -/

theorem heightGuard_true_iff (t : Transaction) (hH : t.Entry.Height < 2 ^ 64) :
    heightGuard sub64 t.Entry.Height t.Height = true ↔ heightViolated t := by
  simp only [heightGuard, heightViolated, MaxHeightDifference, Bool.or_eq_true,
    decide_eq_true_eq]
  by_cases hle : t.Height ≤ t.Entry.Height
  · rw [sub64_of_le _ _ hH hle]
    omega
  · constructor
    · intro _; left; omega
    · intro _; left; omega

theorem coinbase_check_iff (env : Env) (t : Transaction) :
    (Coinbase env t && decide (t.Inputs.length ≠ 1)) = true ↔ coinbaseViolated env t := by
  simp only [Bool.and_eq_true, decide_eq_true_eq, coinbaseViolated, Coinbase, hasKey_iff]
  constructor
  · rintro ⟨hk, hne⟩
    have hpos : 0 < t.Inputs.length := by
      cases hI : t.Inputs with
      | nil => rw [hI] at hk; simp [keys] at hk
      | cons p rest => simp
    exact ⟨hk, by omega⟩
  · rintro ⟨hk, hlt⟩
    exact ⟨hk, by omega⟩

theorem emptyIntersection_false_iff (t : Transaction) :
    emptyIntersection t.Inputs t.Outputs = false ↔ overlapViolated t := by
  rw [← Bool.not_eq_true, emptyIntersection_iff, overlapViolated]
  push_neg
  rfl

/-- C14. For an entry height within `uint64`, `ValidData` returns the error of the first
violated rule in the order height bound, empty inputs, empty outputs, `sum` of the inputs
differing from `sum` of the outputs, coinbase with more than one input, address in both
inputs and outputs; and it returns nil exactly when no rule is violated. A transaction
with a violated height rule and no inputs is rejected for its height, and a transaction
without inputs or without outputs is always rejected. -/
theorem ValidData_rule_order (env : Env) (t : Transaction) (hH : t.Entry.Height < 2 ^ 64) :
    (heightViolated t → ValidData env t = .error .invalidHeight) ∧
    (¬ heightViolated t → t.Inputs = [] → ValidData env t = .error .noInputs) ∧
    (¬ heightViolated t → t.Inputs ≠ [] → t.Outputs = [] →
      ValidData env t = .error .noOutputs) ∧
    (¬ heightViolated t → t.Inputs ≠ [] → t.Outputs ≠ [] → sum t.Inputs ≠ sum t.Outputs →
      ValidData env t = .error .sumMismatch) ∧
    (¬ heightViolated t → t.Inputs ≠ [] → t.Outputs ≠ [] → sum t.Inputs = sum t.Outputs →
      coinbaseViolated env t → ValidData env t = .error .invalidCoinbase) ∧
    (¬ heightViolated t → t.Inputs ≠ [] → t.Outputs ≠ [] → sum t.Inputs = sum t.Outputs →
      ¬ coinbaseViolated env t → overlapViolated t → ValidData env t = .error .overlap) ∧
    (ValidData env t = .ok () ↔
      ¬ heightViolated t ∧ t.Inputs ≠ [] ∧ t.Outputs ≠ [] ∧ sum t.Inputs = sum t.Outputs ∧
        ¬ coinbaseViolated env t ∧ ¬ overlapViolated t) ∧
    (heightViolated t → t.Inputs = [] → ValidData env t = .error .invalidHeight) ∧
    (t.Inputs = [] ∨ t.Outputs = [] → ∃ e, ValidData env t = .error e) := by
  have hg := heightGuard_true_iff t hH
  have hcb := coinbase_check_iff env t
  have hov := emptyIntersection_false_iff t
  have hgf : ¬ heightViolated t → heightGuard sub64 t.Entry.Height t.Height = false := by
    intro h
    cases hgv : heightGuard sub64 t.Entry.Height t.Height
    · rfl
    · exact absurd (hg.mp hgv) h
  have hcbf : ¬ coinbaseViolated env t →
      (Coinbase env t && decide (t.Inputs.length ≠ 1)) = false := by
    intro h
    cases hcv : (Coinbase env t && decide (t.Inputs.length ≠ 1))
    · rfl
    · exact absurd (hcb.mp hcv) h
  have hlenI : t.Inputs ≠ [] → t.Inputs.length ≠ 0 := fun h h0 =>
    h (List.length_eq_zero.mp h0)
  have hlenO : t.Outputs ≠ [] → t.Outputs.length ≠ 0 := fun h h0 =>
    h (List.length_eq_zero.mp h0)
  have h1 : heightViolated t → ValidData env t = .error .invalidHeight := by
    intro h
    unfold ValidData
    rw [if_pos (hg.mpr h)]
  have h2 : ¬ heightViolated t → t.Inputs = [] → ValidData env t = .error .noInputs := by
    intro h hI
    unfold ValidData
    rw [hgf h, hI]
    rfl
  have h3 : ¬ heightViolated t → t.Inputs ≠ [] → t.Outputs = [] →
      ValidData env t = .error .noOutputs := by
    intro h hI hO
    unfold ValidData
    rw [hgf h, if_neg (by simp), if_neg (hlenI hI), hO]
    rfl
  refine ⟨h1, h2, h3, ?_, ?_, ?_, ?_, fun h _ => h1 h, ?_⟩
  · intro h hI hO hs
    unfold ValidData
    rw [hgf h, if_neg (by simp), if_neg (hlenI hI), if_neg (hlenO hO), if_pos hs]
  · intro h hI hO hs hc
    unfold ValidData
    rw [hgf h, if_neg (by simp), if_neg (hlenI hI), if_neg (hlenO hO),
      if_neg (not_not.mpr hs), if_pos (hcb.mpr hc)]
  · intro h hI hO hs hc ho
    unfold ValidData
    rw [hgf h, if_neg (by simp), if_neg (hlenI hI), if_neg (hlenO hO),
      if_neg (not_not.mpr hs), hcbf hc, if_neg (by simp), hov.mpr ho]
    rfl
  · rw [ValidData_ok_iff]
    constructor
    · rintro ⟨a1, a2, a3, a4, a5, a6⟩
      refine ⟨fun h => ?_, fun h => a2 (by simp [h]), fun h => a3 (by simp [h]), a4,
        fun h => ?_, fun h => ?_⟩
      · rw [hg.mpr h] at a1; cases a1
      · rw [hcb.mpr h] at a5; cases a5
      · rw [hov.mpr h] at a6; cases a6
    · rintro ⟨a1, a2, a3, a4, a5, a6⟩
      refine ⟨hgf a1, hlenI a2, hlenO a3, a4, hcbf a5, ?_⟩
      cases hev : emptyIntersection t.Inputs t.Outputs
      · exact absurd (hov.mp hev) a6
      · rfl
  · rintro (hI | hO)
    · by_cases h : heightViolated t
      · exact ⟨_, h1 h⟩
      · exact ⟨_, h2 h hI⟩
    · by_cases h : heightViolated t
      · exact ⟨_, h1 h⟩
      · by_cases hI : t.Inputs = []
        · exact ⟨_, h2 h hI⟩
        · exact ⟨_, h3 h hI hO⟩

/-- C14, instantiated: the entry is at height `10`, the transaction declares height `6`
and has no inputs; it is rejected for its height. -/
theorem ValidData_rule_order_witness :
    ValidData sampleEnv staleEmptyTx = .error .invalidHeight :=
  (ValidData_rule_order sampleEnv staleEmptyTx (by decide)).1
    (Or.inr (by decide))


/-! ## The key of the issuer, and the index accesses -/

theorem validAuth_of_not_coinbase (env : Env) (t : Transaction) (k₁ k₂ : Option Bytes32)
    (hc : Coinbase env t = false) : validAuth env t k₁ = validAuth env t k₂ := by
  unfold validAuth
  simp [hc]

theorem Valid_of_not_coinbase (env : Env) (t t' : Transaction) (k₁ k₂ : Option Bytes32)
    (hu : env.unmarshalEntry t = .ok t') (hc : Coinbase env t' = false) :
    Valid env t k₁ = Valid env t k₂ := by
  cases hd : ValidData env t' with
  | error e =>
    rw [Valid_of_data_error env t t' k₁ e hu hd, Valid_of_data_error env t t' k₂ e hu hd]
  | ok u =>
    cases he : ValidExtIDs env t' with
    | error e =>
      rw [Valid_of_extIDs_error env t t' k₁ e hu hd he,
        Valid_of_extIDs_error env t t' k₂ e hu hd he]
    | ok u' =>
      rw [Valid_eq_validAuth env t t' k₁ hu hd he, Valid_eq_validAuth env t t' k₂ hu hd he]
      exact validAuth_of_not_coinbase env t' k₁ k₂ hc

/-- C15. When the entry unmarshals to a transaction whose inputs do not contain the
coinbase address, `Valid` returns the same for any two values of `idKey`, nil included.
Once `ValidData` and `ValidExtIDs` have passed, `ValidRCDs` returns and decides: `Valid`
returns "invalid RCDs" when it is false, and otherwise what the signature step gives. -/
theorem idKey_only_for_coinbase (env : Env) (t t' : Transaction)
    (hu : env.unmarshalEntry t = .ok t') (hc : env.coinbase ∉ keys t'.Inputs) :
    (∀ k₁ k₂ : Option Bytes32, Valid env t k₁ = Valid env t k₂) ∧
    (∀ k : Bytes32, Valid env t none = Valid env t (some k)) ∧
    (ValidData env t' = .ok () → ValidExtIDs env t' = .ok () →
      ∃ b, ValidRCDs env t' = .ok b ∧ ∀ idKey : Option Bytes32,
        Valid env t idKey =
          if b = false then .error .invalidRCDs
          else if ValidSignatures env t' = true then .ok () else .error .invalidSignatures) := by
  have hcb : Coinbase env t' = false := (hasKey_eq_false_iff _ _).mpr hc
  refine ⟨fun k₁ k₂ => Valid_of_not_coinbase env t t' k₁ k₂ hu hcb,
    fun k => Valid_of_not_coinbase env t t' none (some k) hu hcb, ?_⟩
  intro hd he
  obtain ⟨b, hb, -⟩ := ValidRCDs_of_length env t' ((ValidExtIDs_ok_iff env t').mp he).1
  refine ⟨b, hb, fun idKey => ?_⟩
  rw [Valid_eq_validAuth env t t' idKey hu hd he, validAuth_regular env t' idKey b hcb hb]
  rfl

/-- C15, instantiated: `sampleTx` has no coinbase input, and it is valid with a nil
`idKey` as it is with the key `1`. -/
theorem idKey_only_for_coinbase_witness :
    Valid sampleEnv sampleTx none = Valid sampleEnv sampleTx (some 1) :=
  (idKey_only_for_coinbase sampleEnv sampleTx sampleTx rfl (by decide)).2.1 1

theorem forEach_error (l : List Nat) (body : Nat → Except Err Unit) (e : Err)
    (h : forEach l body = .error e) : ∃ i ∈ l, body i = .error e := by
  induction l with
  | nil => simp [forEach] at h
  | cons i rest ih =>
    unfold forEach at h
    cases hb : body i with
    | error e' =>
      rw [hb] at h
      dsimp only at h
      exact ⟨i, List.mem_cons_self _ _, by rw [hb, h]⟩
    | ok u =>
      rw [hb] at h
      dsimp only at h
      obtain ⟨j, hj, hbj⟩ := ih h
      exact ⟨j, List.mem_cons_of_mem _ hj, hbj⟩

theorem checkPair_no_fault (env : Env) (extIDs : List Bytes) (i : Nat)
    (hsize : 0 < env.RCDSize) (hi : i * 2 + 1 < extIDs.length) :
    checkPair env extIDs i ≠ .error .runtimeFault := by
  unfold checkPair
  rw [List.getElem?_eq_getElem (by omega : i * 2 < extIDs.length),
    List.getElem?_eq_getElem hi]
  dsimp only
  by_cases hlen : (extIDs[i * 2]).length = env.RCDSize
  swap
  · rw [if_pos hlen]; simp
  rw [if_neg (not_not.mpr hlen)]
  have h0 : 0 < (extIDs[i * 2]).length := by omega
  rw [List.getElem?_eq_getElem h0]
  dsimp only
  split_ifs <;> simp

theorem ValidExtIDs_no_fault (env : Env) (t : Transaction) (hsize : 0 < env.RCDSize) :
    ValidExtIDs env t ≠ .error .runtimeFault := by
  unfold ValidExtIDs
  split
  · simp
  · rename_i hlen
    intro h
    obtain ⟨i, hi, hb⟩ := forEach_error _ _ _ h
    rw [List.mem_range] at hi
    exact checkPair_no_fault env t.Entry.ExtIDs i hsize (by omega) hb

theorem ValidData_no_fault (env : Env) (t : Transaction) :
    ValidData env t ≠ .error .runtimeFault := by
  unfold ValidData
  split_ifs <;> simp

theorem validAuth_no_fault (env : Env) (t : Transaction) (k : Bytes32)
    (hd : ValidData env t = .ok ()) (he : ValidExtIDs env t = .ok ()) :
    validAuth env t (some k) ≠ .error .runtimeFault := by
  cases hc : Coinbase env t with
  | true =>
    obtain ⟨rcd, -, hr⟩ := RCDHash_of_valid env t hd he
    rw [validAuth_coinbase env t k _ hc hr]
    unfold signatureStep
    split_ifs <;> simp
  | false =>
    obtain ⟨b, hb, -⟩ := ValidRCDs_of_length env t ((ValidExtIDs_ok_iff env t).mp he).1
    rw [validAuth_regular env t _ b hc hb]
    unfold signatureStep
    split_ifs <;> simp

/-- C17. With an RCD size of at least one byte, `ValidExtIDs` never faults, whatever the
external IDs are. When `ValidData` and `ValidExtIDs` return nil there is at least one
input and there are at least twice as many external IDs as inputs, so that `RCDHash` and
`ValidRCDs` return without a fault. In `Valid` with a non-nil `idKey` an error of
`ValidData` or of `ValidExtIDs` is returned before either of them is reached, and `Valid`
does not fault once the entry has been unmarshaled. -/
theorem no_index_out_of_range (env : Env) (hsize : 0 < env.RCDSize) :
    (∀ t : Transaction, ValidExtIDs env t ≠ .error .runtimeFault) ∧
    (∀ t : Transaction, ValidData env t = .ok () → ValidExtIDs env t = .ok () →
      1 ≤ t.Inputs.length ∧ 2 * t.Inputs.length ≤ t.Entry.ExtIDs.length ∧
      (∃ h, RCDHash env t = .ok h) ∧ (∃ b, ValidRCDs env t = .ok b)) ∧
    (∀ (t t' : Transaction) (k : Bytes32), env.unmarshalEntry t = .ok t' →
      (∀ e, ValidData env t' = .error e → Valid env t (some k) = .error e) ∧
      (∀ e, ValidData env t' = .ok () → ValidExtIDs env t' = .error e →
        Valid env t (some k) = .error e) ∧
      Valid env t (some k) ≠ .error .runtimeFault) := by
  refine ⟨fun t => ValidExtIDs_no_fault env t hsize, ?_, ?_⟩
  · intro t hd he
    have hlen := ((ValidExtIDs_ok_iff env t).mp he).1
    have hpos := ((ValidData_ok_iff env t).mp hd).2.1
    obtain ⟨rcd, -, hr⟩ := RCDHash_of_valid env t hd he
    obtain ⟨b, hb, -⟩ := ValidRCDs_of_length env t hlen
    exact ⟨by omega, hlen, ⟨_, hr⟩, ⟨b, hb⟩⟩
  · intro t t' k hu
    refine ⟨fun e hd => Valid_of_data_error env t t' _ e hu hd,
      fun e hd he => Valid_of_extIDs_error env t t' _ e hu hd he, ?_⟩
    cases hd : ValidData env t' with
    | error e =>
      rw [Valid_of_data_error env t t' _ e hu hd, ← hd]
      exact ValidData_no_fault env t'
    | ok u =>
      cases he : ValidExtIDs env t' with
      | error e =>
        rw [Valid_of_extIDs_error env t t' _ e hu hd he, ← he]
        exact ValidExtIDs_no_fault env t' hsize
      | ok u' =>
        rw [Valid_eq_validAuth env t t' _ hu hd he]
        exact validAuth_no_fault env t' k hd he

/-- C17, instantiated: in `sampleEnv`, whose RCDs are two bytes long, `ValidExtIDs` does
not fault on a transaction with one input, an empty RCD and no signature. -/
theorem no_index_out_of_range_witness :
    ValidExtIDs sampleEnv (withExtIDs sampleTx [[]]) ≠ .error .runtimeFault :=
  (no_index_out_of_range sampleEnv (by decide)).1 (withExtIDs sampleTx [[]])

/-! ## Pagination -/

theorem toInt64_of_lt (x : Nat) (h : x < 2 ^ 63) : toInt64 x = (x : Int) := by
  have hmod : x % 2 ^ 64 = x := Nat.mod_eq_of_lt (by omega)
  unfold toInt64
  rw [hmod, if_pos h]

/-- C20. `Paginate` appends its text and one bind function. With `L` the limit when it
is between `1` and `MaxLimit`, which is `600`, and `MaxLimit` when it is `0` or greater,
the function binds an offset at the parameter it is given and `L` at the next one, and
reports two binds. For a page of at least `1` with `(page - 1) * L` below `2 ^ 63` the
offset is `(page - 1) * L`. -/
theorem paginate_limit (q : sql) (page limit : Nat) :
    ∃ L : Nat, 1 ≤ L ∧ L ≤ MaxLimit ∧ MaxLimit = 600 ∧
      (1 ≤ limit ∧ limit ≤ 600 → L = limit) ∧ (limit = 0 ∨ 600 < limit → L = 600) ∧
      ∃ (offset : Int) (f : bindFunc),
        (q.Paginate page limit).text = q.text ++ limitClause ∧
        (q.Paginate page limit).binds = q.binds ++ [f] ∧
        (∀ s p, f s p = (⟨s.query, s.bound ++ [(p, offset), (p + 1, (L : Int))]⟩, 2)) ∧
        (1 ≤ page → (page - 1) * L < 2 ^ 63 → offset = (((page - 1) * L : Nat) : Int)) := by
  have hL : ∀ L : Nat, L = (if limit = 0 ∨ limit > MaxLimit then MaxLimit else limit) →
      1 ≤ L ∧ L ≤ 600 ∧ (1 ≤ limit ∧ limit ≤ 600 → L = limit) ∧
        (limit = 0 ∨ 600 < limit → L = 600) := by
    intro L hdef
    unfold MaxLimit at hdef
    split_ifs at hdef with hc <;> omega
  obtain ⟨h1, h2, h3, h4⟩ := hL _ rfl
  refine ⟨_, h1, h2, rfl, h3, h4,
    toInt64 (mul64 (sub64 page 1) (if limit = 0 ∨ limit > MaxLimit then MaxLimit else limit)),
    _, rfl, rfl, ?_, ?_⟩
  · intro s p
    have hlim := toInt64_of_lt (if limit = 0 ∨ limit > MaxLimit then MaxLimit else limit)
      (by omega)
    rw [hlim]
    simp [Stmt.BindInt64]
  · intro hp hlt
    have hsub : sub64 page 1 = page - 1 := by
      have hpage : page - 1 < 2 ^ 63 := by
        have := Nat.le_mul_of_pos_right (page - 1) h1
        omega
      unfold sub64
      omega
    rw [hsub]
    have hmul : mul64 (page - 1) (if limit = 0 ∨ limit > MaxLimit then MaxLimit else limit) =
        (page - 1) * (if limit = 0 ∨ limit > MaxLimit then MaxLimit else limit) := by
      unfold mul64
      exact Nat.mod_eq_of_lt (by omega)
    rw [hmul]
    exact toInt64_of_lt _ hlt

/-- C20, instantiated: page `3` with limit `10` binds the offset `20` and the limit
`10`, and a limit of `0` binds `600`. -/
theorem paginate_limit_witness :
    (emptyQuery.Paginate 3 10).Prep.bound = [(1, 20), (2, 10)] ∧
      (emptyQuery.Paginate 1 0).Prep.bound = [(1, 0), (2, 600)] ∧
      ∃ L : Nat, 1 ≤ L ∧ L ≤ MaxLimit ∧ MaxLimit = 600 ∧
        (1 ≤ 10 ∧ 10 ≤ 600 → L = 10) ∧ (10 = 0 ∨ 600 < 10 → L = 600) ∧
        ∃ (offset : Int) (f : bindFunc),
          (emptyQuery.Paginate 3 10).text = emptyQuery.text ++ limitClause ∧
          (emptyQuery.Paginate 3 10).binds = emptyQuery.binds ++ [f] ∧
          (∀ s p, f s p = (⟨s.query, s.bound ++ [(p, offset), (p + 1, (L : Int))]⟩, 2)) ∧
          (1 ≤ 3 → (3 - 1) * L < 2 ^ 63 → offset = (((3 - 1) * L : Nat) : Int)) :=
  ⟨by decide, by decide, paginate_limit emptyQuery 3 10⟩


theorem paginate_limit_eq (limit : Nat) :
    (if limit = 0 ∨ limit > MaxLimit then MaxLimit else limit) = effectiveLimit limit := by
  unfold effectiveLimit MaxLimit
  split_ifs <;> omega

theorem toInt64_nonneg_iff (x : Nat) : 0 ≤ toInt64 x ↔ x % 2 ^ 64 < 2 ^ 63 := by
  unfold toInt64
  have hlt : x % 2 ^ 64 < 2 ^ 64 := Nat.mod_lt _ (by decide)
  split_ifs with h
  · simp only [h, iff_true]
    omega
  · simp only [h, iff_false]
    omega

theorem mul64_mod (a b : Nat) : mul64 a b % 2 ^ 64 = (a * b) % 2 ^ 64 := by
  unfold mul64
  exact Nat.mod_mod _ _

theorem sub64_one (page : Nat) (hp : 1 ≤ page) (hpage : page < 2 ^ 64) :
    sub64 page 1 = page - 1 := by
  unfold sub64
  omega

/-- C21, the counterexamples. For page `0` and limit `10` the subtraction `page-1` wraps
and the offset bound is `-10`; for page `2 ^ 63` and limit `2` the product wraps past
`2 ^ 63` and the offset bound is `-2`. So the offset is not non-negative for every page
and limit. -/
theorem paginate_offset_negative :
    firstBound (emptyQuery.Paginate 0 10) = some (-10) ∧
    firstBound (emptyQuery.Paginate (2 ^ 63) 2) = some (-2) ∧
    ¬ (∀ page limit : Nat, page < 2 ^ 64 → limit < 2 ^ 64 →
      ∀ offset, firstBound (emptyQuery.Paginate page limit) = some offset → 0 ≤ offset) := by
  have h0 : firstBound (emptyQuery.Paginate 0 10) = some (-10) := by decide
  refine ⟨h0, by decide, fun h => ?_⟩
  exact absurd (h 0 10 (by decide) (by decide) (-10) h0) (by decide)

/-- C21, amended. For a `uint64` page of at least `1`, `Paginate` queues a function that
binds an offset and then the row limit `L`. The offset is non-negative exactly when
`(page - 1) * L` modulo `2 ^ 64` is below `2 ^ 63`; when `(page - 1) * L` itself is below
`2 ^ 63` the offset is `(page - 1) * L`, hence non-negative. -/
theorem paginate_offset_nonneg (q : sql) (page limit : Nat) (hp : 1 ≤ page)
    (hpage : page < 2 ^ 64) :
    ∃ (offset : Int) (f : bindFunc),
      (q.Paginate page limit).binds = q.binds ++ [f] ∧
      (∀ s p, f s p =
        (⟨s.query, s.bound ++ [(p, offset), (p + 1, (effectiveLimit limit : Int))]⟩, 2)) ∧
      (0 ≤ offset ↔ ((page - 1) * effectiveLimit limit) % 2 ^ 64 < 2 ^ 63) ∧
      ((page - 1) * effectiveLimit limit < 2 ^ 63 →
        offset = (((page - 1) * effectiveLimit limit : Nat) : Int) ∧ 0 ≤ offset) := by
  have hL : 1 ≤ effectiveLimit limit ∧ effectiveLimit limit ≤ 600 := by
    unfold effectiveLimit
    split_ifs <;> omega
  have hbinds : (q.Paginate page limit).binds = q.binds ++ [fun s p =>
      ((s.BindInt64 p (toInt64 (mul64 (sub64 page 1) (effectiveLimit limit)))).BindInt64
        (p + 1) (toInt64 (effectiveLimit limit)), 2)] := by
    rw [← paginate_limit_eq limit]
    rfl
  have hiff : 0 ≤ toInt64 (mul64 (sub64 page 1) (effectiveLimit limit)) ↔
      ((page - 1) * effectiveLimit limit) % 2 ^ 64 < 2 ^ 63 := by
    rw [toInt64_nonneg_iff, mul64_mod, sub64_one page hp hpage]
  refine ⟨toInt64 (mul64 (sub64 page 1) (effectiveLimit limit)), _, hbinds, ?_, hiff, ?_⟩
  · intro s p
    rw [toInt64_of_lt (effectiveLimit limit) (by omega)]
    simp [Stmt.BindInt64]
  · intro hlt
    have hmod : ((page - 1) * effectiveLimit limit) % 2 ^ 64 =
        (page - 1) * effectiveLimit limit := Nat.mod_eq_of_lt (by omega)
    have hnonneg := hiff.mpr (by rw [hmod]; exact hlt)
    refine ⟨?_, hnonneg⟩
    have hmul : mul64 (sub64 page 1) (effectiveLimit limit) =
        (page - 1) * effectiveLimit limit := by
      rw [sub64_one page hp hpage]
      unfold mul64
      exact hmod
    rw [hmul]
    exact toInt64_of_lt _ hlt

/-- C21, instantiated: page `3` with limit `10` binds the offset `20`. -/
theorem paginate_offset_nonneg_witness :
    firstBound (emptyQuery.Paginate 3 10) = some 20 ∧
    ∃ (offset : Int) (f : bindFunc),
      (emptyQuery.Paginate 3 10).binds = emptyQuery.binds ++ [f] ∧
      (∀ s p, f s p =
        (⟨s.query, s.bound ++ [(p, offset), (p + 1, (effectiveLimit 10 : Int))]⟩, 2)) ∧
      (0 ≤ offset ↔ ((3 - 1) * effectiveLimit 10) % 2 ^ 64 < 2 ^ 63) ∧
      ((3 - 1) * effectiveLimit 10 < 2 ^ 63 →
        offset = (((3 - 1) * effectiveLimit 10 : Nat) : Int) ∧ 0 ≤ offset) :=
  ⟨by decide, paginate_offset_nonneg emptyQuery 3 10 (by decide) (by decide)⟩

end Fat0
